import Mathlib

/-!
Verification of the Lexical Markdown serializer
(src/packages/lexical-markdown/src/convertToMarkdown.js).

The serializer consumes a pre-order depth-first flattening of a document
tree, given as an ordered list of (node, depth) entries, and produces one
Markdown string.  It keeps four stacks (link closing brackets, lists,
quotes, code fences) whose frames record the depth at which they were
opened; frames are closed lazily by comparing the depth of the upcoming
entry against the recorded depth.

All definitions below are translated directly from the JavaScript source.
The JavaScript expression `listStack[listStack.length - 1].tag` throws a
TypeError when the list stack is empty; the embedding therefore returns
`Option St`, with `none` standing for that runtime error.
-/

/-- The ordering tag of a list node: `getTag()` returns `ul` or `ol`. -/
inductive ListTag where
  | ul : ListTag
  | ol : ListTag
deriving DecidableEq, Repr

/-- Document node, a tagged union over the kinds the serializer inspects.
Attribute accessors of the source (`getTag`, `getTextContent`, `hasFormat`,
`getURL`, `$hasSingleListChild`) become constructor fields.  The four
format flags appear in the order the source tests them: code, bold,
italic, strikethrough.  Every kind the source does not recognize is
`other`. -/
inductive Node where
  | heading (tag : String) : Node
  | list (tag : ListTag) : Node
  | listItem (hasSingleListChild : Bool) : Node
  | text (content : String) (fmtCode fmtBold fmtItalic fmtStrike : Bool) : Node
  | paragraph : Node
  | quote : Node
  | linebreak : Node
  | code : Node
  | link (url : String) : Node
  | other : Node
deriving DecidableEq, Repr

/-- One element of the flattened traversal produced by `$dfs`:
a node together with its depth in the tree. -/
structure Entry where
  node : Node
  depth : Nat
deriving DecidableEq, Repr

/-- A frame of `closingBracketStack`: the depth of the Link node and the
closing text `](url)` to flush when the link scope ends. -/
structure LinkFrame where
  depth : Nat
  endText : String
deriving DecidableEq, Repr

/-- A frame of `listStack`: item counter, depth of the List node, and its
ordering tag. -/
structure ListFrame where
  count : Nat
  depth : Nat
  tag : ListTag
deriving DecidableEq, Repr

/-- The mutable state of one `$convertToMarkdownString` invocation: output
buffer, first-line-break flag, and the four stacks.  The head of each list
is the top of the stack.  Quote and code frames hold only a depth, so those
stacks are lists of depths. -/
structure St where
  text : String
  shouldAppendFirstLineBreak : Bool
  closingBracketStack : List LinkFrame
  listStack : List ListFrame
  quoteStack : List Nat
  codeStack : List Nat
deriving DecidableEq, Repr

/-- The fresh state allocated at the start of every invocation. -/
def initialState : St :=
  { text := ""
    shouldAppendFirstLineBreak := false
    closingBracketStack := []
    listStack := []
    quoteStack := []
    codeStack := [] }

/-- `appendLineBreak` from the source: append a newline only when the
output is non-empty or the first-line-break flag is set. -/
def appendLineBreak (text : String) (isFirstLineBreak : Bool) : String :=
  if 0 < text.length ∨ isFirstLineBreak then text ++ "\n" else text

/-- `String.prototype.replace` with a global single-character pattern:
every occurrence of `t` is replaced by the string `r`. -/
def replaceChar (l : List Char) (t : Char) (r : List Char) : List Char :=
  match l with
  | [] => []
  | c :: rest => (if c = t then r else [c]) ++ replaceChar rest t r

/-- `encodeURL` from the source: `url.replace(/\)/g, '%29')`. -/
def encodeURL (url : String) : String :=
  String.mk (replaceChar url.toList ')' "%29".toList)

/-- `encodeURLTitle` from the source:
`url.replace(/\\/g,'\\\\').replace(/\[/g,'\\[').replace(/\]/g,'\\]')`. -/
def encodeURLTitle (url : String) : String :=
  String.mk
    (replaceChar
      (replaceChar
        (replaceChar url.toList '\\' "\\\\".toList)
        '[' "\\[".toList)
      ']' "\\]".toList)

/-- The per-kind emission of the loop body, before the close-out passes.
`none` models the TypeError thrown when a marker-emitting ListItem is
visited while `listStack` is empty. -/
def emitNode (st : St) (e : Entry) : Option St :=
  match e.node with
  | Node.heading tag =>
      if tag = "h1" then
        some { st with
          text := appendLineBreak st.text st.shouldAppendFirstLineBreak ++ "# " }
      else if tag = "h2" then
        some { st with
          text := appendLineBreak st.text st.shouldAppendFirstLineBreak ++ "## " }
      else some st
  | Node.list tag =>
      some { st with listStack := ⟨0, e.depth, tag⟩ :: st.listStack }
  | Node.listItem hasSingleListChild =>
      if hasSingleListChild then some st
      else
        let text := appendLineBreak st.text st.shouldAppendFirstLineBreak
        match st.listStack with
        | [] => none
        | list :: rest =>
            let indent := String.mk (List.replicate (((list :: rest).length - 1) * 4) ' ')
            if list.tag = ListTag.ol then
              some { st with
                text := text ++ indent ++ toString (list.count + 1) ++ ". "
                listStack := { list with count := list.count + 1 } :: rest }
            else
              some { st with text := text ++ indent ++ "- " }
  | Node.text content fmtCode fmtBold fmtItalic fmtStrike =>
      let formattedText := content
      let formattedText :=
        if 0 < st.closingBracketStack.length then encodeURLTitle formattedText
        else formattedText
      let formattedText :=
        if fmtCode then "`" ++ formattedText ++ "`" else formattedText
      let formattedText :=
        if fmtBold then "**" ++ formattedText ++ "**" else formattedText
      let formattedText :=
        if fmtItalic then "*" ++ formattedText ++ "*" else formattedText
      let formattedText :=
        if fmtStrike then "~~" ++ formattedText ++ "~~" else formattedText
      some { st with text := st.text ++ formattedText }
  | Node.paragraph =>
      some { st with
        text := appendLineBreak st.text st.shouldAppendFirstLineBreak
        shouldAppendFirstLineBreak := true }
  | Node.quote =>
      some { st with
        text := appendLineBreak st.text st.shouldAppendFirstLineBreak ++ "> "
        quoteStack := e.depth :: st.quoteStack }
  | Node.linebreak =>
      some { st with
        text := appendLineBreak st.text st.shouldAppendFirstLineBreak }
  | Node.code =>
      some { st with
        text := appendLineBreak st.text st.shouldAppendFirstLineBreak ++ "```\n"
        codeStack := e.depth :: st.codeStack }
  | Node.link url =>
      some { st with
        text := st.text ++ "["
        closingBracketStack := ⟨e.depth, "](" ++ encodeURL url ++ ")"⟩ :: st.closingBracketStack }
  | Node.other => some st

/-- Whether a frame opened at depth `d` must close given the depth of the
next entry: `nextNode == null || nextNode.depth <= frame.depth`. -/
def closable (nd : Option Nat) (d : Nat) : Bool :=
  match nd with
  | none => true
  | some x => x ≤ d

/-- The link close-out: an `if`, popping at most the top bracket frame and
flushing its closing text. -/
def closeLink (st : St) (nd : Option Nat) : St :=
  match st.closingBracketStack with
  | [] => st
  | top :: rest =>
      if closable nd top.depth then
        { st with closingBracketStack := rest, text := st.text ++ top.endText }
      else st

/-- Stack/text evolution of the code close-out `while` loop. -/
def closeCodeGo (nd : Option Nat) : List Nat → String → List Nat × String
  | [], t => ([], t)
  | d :: rest, t =>
      if closable nd d then closeCodeGo nd rest (t ++ "\n```")
      else (d :: rest, t)

/-- The code close-out: pop every closable frame, appending one closing
fence per frame. -/
def closeCode (st : St) (nd : Option Nat) : St :=
  let r := closeCodeGo nd st.codeStack st.text
  { st with codeStack := r.1, text := r.2 }

/-- Stack evolution of the list close-out `while` loop (no text is
appended). -/
def closeListGo (nd : Option Nat) : List ListFrame → List ListFrame
  | [] => []
  | f :: rest =>
      if closable nd f.depth then closeListGo nd rest
      else f :: rest

/-- The list close-out: pop every closable frame. -/
def closeList (st : St) (nd : Option Nat) : St :=
  { st with listStack := closeListGo nd st.listStack }

/-- Stack/text evolution of the quote close-out `while` loop. -/
def closeQuoteGo (nd : Option Nat) : List Nat → String → List Nat × String
  | [], t => ([], t)
  | d :: rest, t =>
      if closable nd d then closeQuoteGo nd rest (t ++ "\n")
      else (d :: rest, t)

/-- The quote close-out: pop every closable frame, appending one newline
per frame. -/
def closeQuote (st : St) (nd : Option Nat) : St :=
  let r := closeQuoteGo nd st.quoteStack st.text
  { st with quoteStack := r.1, text := r.2 }

/-- The full close-out pass run after each emission, in source order:
link bracket first, then code fences, then lists, then quotes. -/
def closeOut (st : St) (nd : Option Nat) : St :=
  closeQuote (closeList (closeCode (closeLink st nd) nd) nd) nd

/-- One iteration of the traversal loop: emit for the current entry, then
close out against the depth of the next entry (`none` at end of input). -/
def stepEntry (st : St) (e : Entry) (nd : Option Nat) : Option St :=
  (emitNode st e).map (fun s => closeOut s nd)

/-- State after the first `k` iterations of the traversal loop over
`nodes`, starting from `st0`.  Iteration `k` processes `nodes[k]` with
lookahead `nodes[k+1]` exactly as the source `for` loop does. -/
def runLoop (nodes : List Entry) (st0 : St) : Nat → Option St
  | 0 => some st0
  | k + 1 =>
      (runLoop nodes st0 k).bind fun st =>
        match nodes[k]? with
        | none => some st
        | some e => stepEntry st e ((nodes[k + 1]?).map Entry.depth)

/-- `$convertToMarkdownString`: run the loop over the whole flattened
sequence from a fresh state and return the output buffer.  `none` models
an uncaught TypeError. -/
def convertToMarkdownString (nodes : List Entry) : Option String :=
  (runLoop nodes initialState nodes.length).map St.text

/-- A sequence of independent serializer invocations: each call starts
from the fresh `initialState` baked into `convertToMarkdownString`, so no
state is threaded from one call to the next. -/
def runCalls (calls : List (List Entry)) : List (Option String) :=
  calls.map convertToMarkdownString

/-- `a` is a prefix of `b` as strings of bytes. -/
def TextPrefix (a b : String) : Prop := ∃ s, b = a ++ s

/-! ### Basic lemmas about the output buffer -/

theorem TextPrefix.rfl (a : String) : TextPrefix a a := ⟨"", by simp⟩

theorem TextPrefix.trans {a b c : String} (h1 : TextPrefix a b)
    (h2 : TextPrefix b c) : TextPrefix a c := by
  obtain ⟨s1, rfl⟩ := h1
  obtain ⟨s2, rfl⟩ := h2
  exact ⟨s1 ++ s2, by rw [String.append_assoc]⟩

theorem textPrefix_append (a s : String) : TextPrefix a (a ++ s) := ⟨s, by simp⟩

theorem TextPrefix.push {a b : String} (h : TextPrefix a b) (c : String) :
    TextPrefix a (b ++ c) := h.trans (textPrefix_append b c)

theorem appendLineBreak_textPrefix (t : String) (b : Bool) :
    TextPrefix t (appendLineBreak t b) := by
  unfold appendLineBreak
  split
  · exact textPrefix_append t "\n"
  · exact TextPrefix.rfl t

theorem appendLineBreak_of_ne (t : String) (b : Bool) (h : t ≠ "") :
    appendLineBreak t b = t ++ "\n" := by
  unfold appendLineBreak
  rw [if_pos]
  left
  cases t with
  | mk l =>
    cases l with
    | nil => exact absurd rfl h
    | cons c cs => simp [String.length]

/-- Every branch of the per-kind emission only appends to the output. -/
theorem emitNode_extends {st : St} {e : Entry} {st' : St}
    (h : emitNode st e = some st') : TextPrefix st.text st'.text := by
  cases e with
  | mk node depth =>
    have halb := appendLineBreak_textPrefix st.text st.shouldAppendFirstLineBreak
    cases node with
    | heading tag =>
        simp only [emitNode] at h
        split at h
        · injection h with h; subst h
          exact halb.push "# "
        · split at h
          · injection h with h; subst h
            exact halb.push "## "
          · injection h with h; subst h; exact TextPrefix.rfl _
    | list tag =>
        simp only [emitNode] at h
        injection h with h; subst h; exact TextPrefix.rfl _
    | listItem single =>
        simp only [emitNode] at h
        split at h
        · injection h with h; subst h; exact TextPrefix.rfl _
        · cases hls : st.listStack with
          | nil => simp only [hls] at h; exact absurd h (by simp)
          | cons f rest =>
              simp only [hls] at h
              split at h
              · injection h with h; subst h
                exact (halb.push _).push _ |>.push ". "
              · injection h with h; subst h
                exact (halb.push _).push "- "
    | text content fc fb fi fs =>
        simp only [emitNode] at h
        injection h with h; subst h
        exact textPrefix_append st.text _
    | paragraph =>
        simp only [emitNode] at h
        injection h with h; subst h
        exact halb
    | quote =>
        simp only [emitNode] at h
        injection h with h; subst h
        exact halb.push "> "
    | linebreak =>
        simp only [emitNode] at h
        injection h with h; subst h
        exact halb
    | code =>
        simp only [emitNode] at h
        injection h with h; subst h
        exact halb.push "```\n"
    | link url =>
        simp only [emitNode] at h
        injection h with h; subst h
        exact textPrefix_append st.text "["
    | other =>
        simp only [emitNode] at h
        injection h with h; subst h; exact TextPrefix.rfl _

theorem closeLink_extends (st : St) (nd : Option Nat) :
    TextPrefix st.text (closeLink st nd).text := by
  unfold closeLink
  split
  · exact TextPrefix.rfl _
  · split
    · exact ⟨_, Eq.refl _⟩
    · exact TextPrefix.rfl _

theorem closeCodeGo_extends (nd : Option Nat) :
    ∀ (l : List Nat) (t : String), TextPrefix t (closeCodeGo nd l t).2 := by
  intro l
  induction l with
  | nil => intro t; exact TextPrefix.rfl _
  | cons d rest ih =>
      intro t
      unfold closeCodeGo
      split
      · exact (textPrefix_append t "\n```").trans (ih _)
      · exact TextPrefix.rfl _

theorem closeQuoteGo_extends (nd : Option Nat) :
    ∀ (l : List Nat) (t : String), TextPrefix t (closeQuoteGo nd l t).2 := by
  intro l
  induction l with
  | nil => intro t; exact TextPrefix.rfl _
  | cons d rest ih =>
      intro t
      unfold closeQuoteGo
      split
      · exact (textPrefix_append t "\n").trans (ih _)
      · exact TextPrefix.rfl _

theorem closeOut_extends (st : St) (nd : Option Nat) :
    TextPrefix st.text (closeOut st nd).text := by
  unfold closeOut closeQuote closeList closeCode
  exact ((closeLink_extends st nd).trans
    (closeCodeGo_extends nd _ _)).trans (closeQuoteGo_extends nd _ _)

theorem stepEntry_extends {st : St} {e : Entry} {nd : Option Nat} {st' : St}
    (h : stepEntry st e nd = some st') : TextPrefix st.text st'.text := by
  unfold stepEntry at h
  cases hm : emitNode st e with
  | none => rw [hm] at h; exact absurd h (by simp)
  | some s =>
      rw [hm] at h
      injection h with h
      subst h
      exact (emitNode_extends hm).trans (closeOut_extends s nd)

theorem runLoop_extends (nodes : List Entry) (st0 : St) :
    ∀ (k : Nat) (st' : St), runLoop nodes st0 k = some st' →
      TextPrefix st0.text st'.text := by
  intro k
  induction k with
  | zero =>
      intro st' h
      injection h with h; subst h
      exact TextPrefix.rfl _
  | succ k ih =>
      intro st' h
      unfold runLoop at h
      cases hr : runLoop nodes st0 k with
      | none => rw [hr] at h; exact absurd h (by simp)
      | some st =>
          rw [hr] at h
          simp only [Option.some_bind] at h
          cases hn : nodes[k]? with
          | none =>
              rw [hn] at h
              injection h with h; subst h
              exact ih _ hr
          | some e =>
              rw [hn] at h
              exact (ih _ hr).trans (stepEntry_extends h)

/-! ### Field-projection lemmas for the close-out passes -/

@[simp] theorem closeLink_listStack (st : St) (nd : Option Nat) :
    (closeLink st nd).listStack = st.listStack := by
  unfold closeLink
  split
  · rfl
  · split <;> rfl

@[simp] theorem closeLink_quoteStack (st : St) (nd : Option Nat) :
    (closeLink st nd).quoteStack = st.quoteStack := by
  unfold closeLink
  split
  · rfl
  · split <;> rfl

@[simp] theorem closeLink_codeStack (st : St) (nd : Option Nat) :
    (closeLink st nd).codeStack = st.codeStack := by
  unfold closeLink
  split
  · rfl
  · split <;> rfl

@[simp] theorem closeLink_flag (st : St) (nd : Option Nat) :
    (closeLink st nd).shouldAppendFirstLineBreak = st.shouldAppendFirstLineBreak := by
  unfold closeLink
  split
  · rfl
  · split <;> rfl

@[simp] theorem closeCode_closingBracketStack (st : St) (nd : Option Nat) :
    (closeCode st nd).closingBracketStack = st.closingBracketStack := rfl

@[simp] theorem closeCode_listStack (st : St) (nd : Option Nat) :
    (closeCode st nd).listStack = st.listStack := rfl

@[simp] theorem closeCode_quoteStack (st : St) (nd : Option Nat) :
    (closeCode st nd).quoteStack = st.quoteStack := rfl

@[simp] theorem closeCode_flag (st : St) (nd : Option Nat) :
    (closeCode st nd).shouldAppendFirstLineBreak = st.shouldAppendFirstLineBreak := rfl

@[simp] theorem closeCode_codeStack (st : St) (nd : Option Nat) :
    (closeCode st nd).codeStack = (closeCodeGo nd st.codeStack st.text).1 := rfl

@[simp] theorem closeList_closingBracketStack (st : St) (nd : Option Nat) :
    (closeList st nd).closingBracketStack = st.closingBracketStack := rfl

@[simp] theorem closeList_quoteStack (st : St) (nd : Option Nat) :
    (closeList st nd).quoteStack = st.quoteStack := rfl

@[simp] theorem closeList_codeStack (st : St) (nd : Option Nat) :
    (closeList st nd).codeStack = st.codeStack := rfl

@[simp] theorem closeList_text (st : St) (nd : Option Nat) :
    (closeList st nd).text = st.text := rfl

@[simp] theorem closeList_flag (st : St) (nd : Option Nat) :
    (closeList st nd).shouldAppendFirstLineBreak = st.shouldAppendFirstLineBreak := rfl

@[simp] theorem closeList_listStack (st : St) (nd : Option Nat) :
    (closeList st nd).listStack = closeListGo nd st.listStack := rfl

@[simp] theorem closeQuote_closingBracketStack (st : St) (nd : Option Nat) :
    (closeQuote st nd).closingBracketStack = st.closingBracketStack := rfl

@[simp] theorem closeQuote_listStack (st : St) (nd : Option Nat) :
    (closeQuote st nd).listStack = st.listStack := rfl

@[simp] theorem closeQuote_codeStack (st : St) (nd : Option Nat) :
    (closeQuote st nd).codeStack = st.codeStack := rfl

@[simp] theorem closeQuote_flag (st : St) (nd : Option Nat) :
    (closeQuote st nd).shouldAppendFirstLineBreak = st.shouldAppendFirstLineBreak := rfl

@[simp] theorem closeQuote_quoteStack (st : St) (nd : Option Nat) :
    (closeQuote st nd).quoteStack = (closeQuoteGo nd st.quoteStack st.text).1 := rfl

/-! ### Claims C10 and C9 -/

/-- C10: the serializer maps the empty traversal to the empty string, and
each loop iteration only appends to the output buffer, so the buffer
after any prefix of the loop is a prefix of the final output. -/
theorem claim_c10_empty_and_monotone :
    convertToMarkdownString [] = some "" ∧
    (∀ (st : St) (e : Entry) (nd : Option Nat) (st' : St),
      stepEntry st e nd = some st' → TextPrefix st.text st'.text) ∧
    (∀ (nodes : List Entry) (st0 : St) (k : Nat) (st' : St),
      runLoop nodes st0 k = some st' → TextPrefix st0.text st'.text) := by
  refine ⟨rfl, ?_, ?_⟩
  · intro st e nd st' h
    exact stepEntry_extends h
  · intro nodes st0 k st' h
    exact runLoop_extends nodes st0 k st' h

/-- Witness for C10: a concrete run of the loop, with the prefix property
instantiated on it. -/
theorem claim_c10_witness :
    TextPrefix initialState.text
      (St.mk "" true [] [] [] []).text :=
  claim_c10_empty_and_monotone.2.2 [⟨Node.paragraph, 0⟩] initialState 1
    (St.mk "" true [] [] [] []) (by decide)

/-- C9: the serializer is deterministic and stateless across calls.  A
sequence of invocations is modelled by `runCalls`; the result of the last
call does not depend on any earlier call, repeated calls on the same input
give byte-identical results, and every call starts from the fresh
`initialState` (all mutable state is allocated inside the call). -/
theorem claim_c9_deterministic_stateless :
    (∀ (prior : List (List Entry)) (ns : List Entry),
      runCalls (prior ++ [ns]) = runCalls prior ++ [convertToMarkdownString ns]) ∧
    (∀ ns : List Entry,
      runCalls [ns, ns] = [convertToMarkdownString ns, convertToMarkdownString ns]) ∧
    (∀ ns : List Entry,
      convertToMarkdownString ns = (runLoop ns initialState ns.length).map St.text) := by
  refine ⟨?_, ?_, ?_⟩
  · intro prior ns
    simp [runCalls]
  · intro ns
    rfl
  · intro ns
    rfl

/-! ### Claim C5: URL encoding of the link closing text -/

/-- Whether the character list begins with the three characters `%29`. -/
def starts929 (l : List Char) : Bool :=
  decide (l.take 3 = ['%', '2', '9'])

/-- Number of positions at which the substring `%29` occurs. -/
def occ929 : List Char → Nat
  | [] => 0
  | c :: rest => (if starts929 (c :: rest) then 1 else 0) + occ929 rest

/-- Number of `%29` occurrences in a string. -/
def occ929Str (s : String) : Nat := occ929 s.toList

/-- Number of right parentheses in a string. -/
def countRParen (s : String) : Nat := s.toList.count ')'

theorem starts929_append_of_ne (l : List Char) (c0 : Char) (h : c0 ≠ '9') :
    starts929 (l ++ [c0]) = starts929 l := by
  match l with
  | [] => simp [starts929]
  | [a] => simp [starts929]
  | [a, b] => simp [starts929, h]
  | a :: b :: c :: t => rfl

theorem occ929_append_rparen (l : List Char) :
    occ929 (l ++ [')']) = occ929 l := by
  induction l with
  | nil => rfl
  | cons c rest ih =>
      show (if starts929 ((c :: rest) ++ [')']) then 1 else 0) + occ929 (rest ++ [')'])
        = (if starts929 (c :: rest) then 1 else 0) + occ929 rest
      rw [starts929_append_of_ne (c :: rest) ')' (by decide), ih]

theorem replaceChar_head2 {l m : List Char}
    (h : replaceChar l ')' ['%', '2', '9'] = '2' :: m) :
    ∃ t, l = '2' :: t ∧ m = replaceChar t ')' ['%', '2', '9'] := by
  cases l with
  | nil => exact absurd h (by simp [replaceChar])
  | cons c rest =>
      by_cases hc : c = ')'
      · have h' : ('%' :: '2' :: '9' :: replaceChar rest ')' ['%', '2', '9']) = '2' :: m := by
          rw [← h]
          simp [replaceChar, hc]
        exact absurd h' (by simp)
      · have h' : (c :: replaceChar rest ')' ['%', '2', '9']) = '2' :: m := by
          rw [← h]
          simp [replaceChar, hc]
        rw [List.cons.injEq] at h'
        exact ⟨rest, by rw [h'.1], h'.2.symm⟩

theorem replaceChar_head9 {l m : List Char}
    (h : replaceChar l ')' ['%', '2', '9'] = '9' :: m) :
    ∃ t, l = '9' :: t ∧ m = replaceChar t ')' ['%', '2', '9'] := by
  cases l with
  | nil => exact absurd h (by simp [replaceChar])
  | cons c rest =>
      by_cases hc : c = ')'
      · have h' : ('%' :: '2' :: '9' :: replaceChar rest ')' ['%', '2', '9']) = '9' :: m := by
          rw [← h]
          simp [replaceChar, hc]
        exact absurd h' (by simp)
      · have h' : (c :: replaceChar rest ')' ['%', '2', '9']) = '9' :: m := by
          rw [← h]
          simp [replaceChar, hc]
        rw [List.cons.injEq] at h'
        exact ⟨rest, by rw [h'.1], h'.2.symm⟩

/-- On inputs that do not already contain `%29`, replacing `)` by `%29`
produces exactly one `%29` occurrence per right parenthesis. -/
theorem occ929_replaceChar (l : List Char) (h : occ929 l = 0) :
    occ929 (replaceChar l ')' ['%', '2', '9']) = l.count ')' := by
  induction l with
  | nil => rfl
  | cons c rest ih =>
      have hsplit : (if starts929 (c :: rest) then 1 else 0) + occ929 rest = 0 := h
      have hrest : occ929 rest = 0 := by omega
      have hns : starts929 (c :: rest) = false := by
        by_cases hb : starts929 (c :: rest)
        · rw [if_pos hb] at hsplit; omega
        · simpa using hb
      have ihr := ih hrest
      by_cases hc : c = ')'
      · subst hc
        have hred : replaceChar (')' :: rest) ')' ['%', '2', '9']
            = '%' :: '2' :: '9' :: replaceChar rest ')' ['%', '2', '9'] := by
          simp [replaceChar]
        rw [hred]
        have e1 : starts929 ('%' :: '2' :: '9' :: replaceChar rest ')' ['%', '2', '9']) = true := by
          simp [starts929]
        have e2 : starts929 ('2' :: '9' :: replaceChar rest ')' ['%', '2', '9']) = false := by
          simp [starts929, List.take]
        have e3 : starts929 ('9' :: replaceChar rest ')' ['%', '2', '9']) = false := by
          simp [starts929, List.take]
        show (if starts929 ('%' :: '2' :: '9' :: replaceChar rest ')' ['%', '2', '9']) then 1 else 0)
            + ((if starts929 ('2' :: '9' :: replaceChar rest ')' ['%', '2', '9']) then 1 else 0)
            + ((if starts929 ('9' :: replaceChar rest ')' ['%', '2', '9']) then 1 else 0)
            + occ929 (replaceChar rest ')' ['%', '2', '9'])))
          = List.count ')' (')' :: rest)
        rw [e1, e2, e3, ihr, List.count_cons]
        simp
        omega
      · have hred : replaceChar (c :: rest) ')' ['%', '2', '9']
            = c :: replaceChar rest ')' ['%', '2', '9'] := by
          simp [replaceChar, hc]
        rw [hred]
        have hhd : starts929 (c :: replaceChar rest ')' ['%', '2', '9']) = false := by
          by_cases hcp : c = '%'
          · subst hcp
            cases hE : replaceChar rest ')' ['%', '2', '9'] with
            | nil => simp [starts929, List.take]
            | cons a m =>
                by_cases ha : a = '2'
                · subst ha
                  obtain ⟨t2, ht2, hm2⟩ := replaceChar_head2 hE
                  cases hm : m with
                  | nil => simp [starts929, List.take]
                  | cons b m2 =>
                      by_cases hb : b = '9'
                      · subst hb
                        rw [hm] at hm2
                        obtain ⟨t9, ht9, _⟩ := replaceChar_head9 hm2.symm
                        rw [ht2, ht9] at hns
                        exact absurd hns (by simp [starts929, List.take])
                      · simp [starts929, List.take, hb]
                · simp [starts929, List.take, ha]
          · simp [starts929, List.take, hcp]
        show (if starts929 (c :: replaceChar rest ')' ['%', '2', '9']) then 1 else 0)
            + occ929 (replaceChar rest ')' ['%', '2', '9']) = List.count ')' (c :: rest)
        rw [hhd, ihr, List.count_cons]
        simp [hc]

theorem endText_toList (x : String) :
    ("](" ++ x ++ ")").toList = ']' :: '(' :: (x.toList ++ [')']) := by
  show (("](" ++ x) ++ ")").data = _
  rw [String.data_append, String.data_append]
  simp

theorem occ929_endText (x : String) :
    occ929Str ("](" ++ x ++ ")") = occ929 (x.toList ++ [')']) := by
  show occ929 ("](" ++ x ++ ")").toList = _
  rw [endText_toList]
  show (if starts929 (']' :: '(' :: (x.toList ++ [')'])) then 1 else 0)
      + ((if starts929 ('(' :: (x.toList ++ [')'])) then 1 else 0)
      + occ929 (x.toList ++ [')'])) = _
  rw [show starts929 (']' :: '(' :: (x.toList ++ [')'])) = false by simp [starts929, List.take],
    show starts929 ('(' :: (x.toList ++ [')'])) = false by simp [starts929, List.take]]
  simp

/-- C5, counterexample: for the URL `%29` (no right parenthesis at all),
the closing parenthetical `](%29)` contains one occurrence of `%29`,
not zero; so `%29` does not occur exactly once per `)` of the URL. -/
theorem claim_c5_counterexample :
    encodeURL "%29" = "%29" ∧
    emitNode initialState ⟨Node.link "%29", 0⟩ = some { initialState with
      text := "[", closingBracketStack := [⟨0, "](%29)"⟩] } ∧
    occ929Str ("](" ++ encodeURL "%29" ++ ")") = 1 ∧
    countRParen "%29" = 0 := by
  refine ⟨by decide, by decide, by decide, by decide⟩

/-- C5, amended: the Link branch pushes a frame whose closing text is
`](`, then the URL with every `)` replaced by `%29` and every other
character unchanged, then `)`; and provided the URL does not already
contain the substring `%29`, the closing parenthetical contains exactly
one `%29` occurrence per `)` of the original URL. -/
theorem claim_c5_amended_encoding :
    (∀ (st : St) (u : String) (d : Nat),
      emitNode st ⟨Node.link u, d⟩ = some { st with
        text := st.text ++ "["
        closingBracketStack := ⟨d, "](" ++ encodeURL u ++ ")"⟩ :: st.closingBracketStack }) ∧
    (∀ u : String, occ929Str u = 0 →
      occ929Str ("](" ++ encodeURL u ++ ")") = countRParen u) := by
  constructor
  · intro st u d
    rfl
  · intro u h
    rw [occ929_endText, occ929_append_rparen]
    exact occ929_replaceChar u.toList h

/-- Witness for the amended C5 at the concrete URL `a)b`. -/
theorem claim_c5_amended_witness :
    occ929Str ("](" ++ encodeURL "a)b" ++ ")") = countRParen "a)b" :=
  claim_c5_amended_encoding.2 "a)b" (by decide)

/-! ### Claim C4: inline text formatting -/

/-- Modelled from the words of the specification: escape each of `\`, `[`,
`]` by prefixing a backslash, in one pass over the characters. -/
def specEscape : List Char → List Char
  | [] => []
  | c :: rest =>
      (if c = '\\' ∨ c = '[' ∨ c = ']' then ['\\', c] else [c]) ++ specEscape rest

/-- Modelled from the words of the specification: escape the content when
a link frame is open, then wrap innermost to outermost with a backtick for
the code flag, `**` for bold, `*` for italic and `~~` for strikethrough,
in that fixed order for every flag combination. -/
def specFormatText (linkOpen : Bool) (content : String)
    (fc fb fi fs : Bool) : String :=
  let t := if linkOpen then String.mk (specEscape content.toList) else content
  let t := if fc then "`" ++ t ++ "`" else t
  let t := if fb then "**" ++ t ++ "**" else t
  let t := if fi then "*" ++ t ++ "*" else t
  let t := if fs then "~~" ++ t ++ "~~" else t
  t

theorem replaceChar_append (l1 l2 : List Char) (t : Char) (r : List Char) :
    replaceChar (l1 ++ l2) t r = replaceChar l1 t r ++ replaceChar l2 t r := by
  induction l1 with
  | nil => rfl
  | cons c rest ih => simp [replaceChar, ih]

theorem seqReplace_eq_specEscape (l : List Char) :
    replaceChar (replaceChar (replaceChar l '\\' ['\\', '\\']) '[' ['\\', '[']) ']' ['\\', ']']
      = specEscape l := by
  induction l with
  | nil => rfl
  | cons c rest ih =>
      by_cases h1 : c = '\\'
      · subst h1
        simp [replaceChar, replaceChar_append, specEscape, ih]
      · by_cases h2 : c = '['
        · subst h2
          simp [replaceChar, replaceChar_append, specEscape, ih]
        · by_cases h3 : c = ']'
          · subst h3
            simp [replaceChar, replaceChar_append, specEscape, ih]
          · simp [replaceChar, replaceChar_append, specEscape, ih, h1, h2, h3]

/-- The three sequential global replacements of `encodeURLTitle` coincide
with the one-pass backslash-prefixing escape of the specification. -/
theorem encodeURLTitle_eq_specEscape (s : String) :
    encodeURLTitle s = String.mk (specEscape s.toList) :=
  congrArg String.mk (seqReplace_eq_specEscape s.toList)

/-- C4: the Text branch appends exactly the content, backslash-escaped on
`\`, `[`, `]` if and only if a link frame is open, then wrapped innermost
to outermost with a backtick, `**`, `*`, `~~` in that fixed order. -/
theorem claim_c4_text_formatting :
    (∀ s : String, encodeURLTitle s = String.mk (specEscape s.toList)) ∧
    (∀ (st : St) (content : String) (fc fb fi fs : Bool) (d : Nat),
      emitNode st ⟨Node.text content fc fb fi fs, d⟩ = some { st with
        text := st.text ++
          specFormatText (!st.closingBracketStack.isEmpty) content fc fb fi fs }) := by
  constructor
  · exact encodeURLTitle_eq_specEscape
  · intro st content fc fb fi fs d
    cases hcb : st.closingBracketStack with
    | nil =>
        simp [emitNode, specFormatText, hcb]
    | cons f rest =>
        simp [emitNode, specFormatText, hcb, encodeURLTitle_eq_specEscape]

/-! ### Claim C2: order of the close-out passes -/

/-- Whether `l` begins with `pat`. -/
def listStarts (pat l : List Char) : Bool :=
  decide (l.take pat.length = pat)

/-- Whether `pat` occurs as a contiguous substring of `l`. -/
def listContains (pat : List Char) : List Char → Bool
  | [] => listStarts pat []
  | c :: rest => listStarts pat (c :: rest) || listContains pat rest

/-- C2, counterexample: with a Code block containing nested Links, at the
final traversal position both the outer link frame (depth 1, text `](a)`)
and the code frame (depth 0) are closable, yet the close-out pops only the
top link frame, so the closing fence is appended while `](a)` never
reaches the output. -/
theorem claim_c2_counterexample :
    convertToMarkdownString
        [⟨Node.code, 0⟩, ⟨Node.link "a", 1⟩, ⟨Node.link "b", 2⟩]
      = some "```\n[[](b)\n```" ∧
    (runLoop [⟨Node.code, 0⟩, ⟨Node.link "a", 1⟩, ⟨Node.link "b", 2⟩]
        initialState 3).map St.closingBracketStack = some [⟨1, "](a)"⟩] ∧
    closable none 1 = true ∧
    listContains "](a)".toList "```\n[[](b)\n```".toList = false := by
  refine ⟨by decide, by decide, by decide, by decide⟩

/-- C2, amended: the close-out pass runs link, code, list, quote in that
fixed order, so whenever the TOP link frame is closable its closing text
is appended directly after the current output, before anything the other
close-outs append; in particular before any closing code fence emitted at
the same position.  (Link frames buried under another link frame are not
popped — see the counterexample.) -/
theorem claim_c2_closeout_order
    (st : St) (nd : Option Nat) (lk : LinkFrame) (lbs : List LinkFrame)
    (hstack : st.closingBracketStack = lk :: lbs)
    (hcl : closable nd lk.depth = true) :
    (∃ rest : String, (closeOut st nd).text = (st.text ++ lk.endText) ++ rest) ∧
    (∀ (c : Nat) (cs : List Nat), st.codeStack = c :: cs → closable nd c = true →
      ∃ rest : String,
        (closeOut st nd).text = ((st.text ++ lk.endText) ++ "\n```") ++ rest) := by
  have h1 : closeLink st nd
      = { st with closingBracketStack := lbs, text := st.text ++ lk.endText } := by
    simp [closeLink, hstack, hcl]
  constructor
  · have hp : TextPrefix (st.text ++ lk.endText) (closeOut st nd).text := by
      unfold closeOut
      rw [h1]
      exact (closeCodeGo_extends nd _ _).trans (closeQuoteGo_extends nd _ _)
    exact hp
  · intro c cs hcs hclc
    have e : (closeCode (closeLink st nd) nd).text
        = (closeCodeGo nd cs ((st.text ++ lk.endText) ++ "\n```")).2 := by
      rw [h1]
      show (closeCodeGo nd st.codeStack (st.text ++ lk.endText)).2 = _
      rw [hcs]
      simp [closeCodeGo, hclc]
    have hp : TextPrefix ((st.text ++ lk.endText) ++ "\n```") (closeOut st nd).text := by
      unfold closeOut
      refine TextPrefix.trans ?_ (closeQuoteGo_extends nd _ _)
      show TextPrefix _ (closeCode (closeLink st nd) nd).text
      rw [e]
      exact closeCodeGo_extends nd _ _
    exact hp

/-- Witness for the amended C2 on a concrete state where the top link
frame and a code frame are both closable at end of input. -/
theorem claim_c2_closeout_order_witness :
    ∃ rest : String,
      (closeOut (St.mk "X" false [⟨1, "](a)"⟩] [] [] [5]) none).text
        = ((("X" : String) ++ "](a)") ++ "\n```") ++ rest :=
  (claim_c2_closeout_order (St.mk "X" false [⟨1, "](a)"⟩] [] [] [5]) none
    ⟨1, "](a)"⟩ [] rfl rfl).2 5 [] rfl rfl

/-! ### Claim C8: blank line after a closed quote -/

theorem append_left_ne_empty (a b : String) (h : a ≠ "") : a ++ b ≠ "" := by
  intro heq
  apply h
  have hd : (a ++ b).data = ([] : List Char) := congrArg String.data heq
  rw [String.data_append] at hd
  have ha : a.data = [] := (List.append_eq_nil.mp hd).1
  cases a with
  | mk d =>
      cases ha
      rfl

/-- C8, counterexample: when the entry following a closed Quote frame is a
Text node (which does not call `appendLineBreak`), the quoted block and
the following content are separated by a single newline, not a blank
line. -/
theorem claim_c8_counterexample :
    convertToMarkdownString
        [⟨Node.quote, 0⟩, ⟨Node.text "q" false false false false, 1⟩,
         ⟨Node.text "p" false false false false, 0⟩]
      = some "> q\np" ∧
    listContains "\n\n".toList "> q\np".toList = false := by
  refine ⟨by decide, by decide⟩

/-- C8, amended: when the content following a closed Quote frame is a
block-level entry that ensures a preceding line break (here a Paragraph),
the output separates the quoted block from the following content by
exactly one blank line: the quote close-out appends one newline and the
following block's `appendLineBreak` appends the second. -/
theorem claim_c8_quote_blank_line (q p : String) :
    convertToMarkdownString
        [⟨Node.quote, 0⟩, ⟨Node.text q false false false false, 1⟩,
         ⟨Node.paragraph, 0⟩, ⟨Node.text p false false false false, 1⟩]
      = some ("> " ++ q ++ "\n\n" ++ p) := by
  have hne1 : ("> " ++ q) ≠ "" := append_left_ne_empty "> " q (by decide)
  have hne2 : (("> " ++ q) ++ "\n") ≠ "" := append_left_ne_empty _ "\n" hne1
  show (runLoop _ initialState 4).map St.text = _
  have s1 : runLoop
      [⟨Node.quote, 0⟩, ⟨Node.text q false false false false, 1⟩,
       ⟨Node.paragraph, 0⟩, ⟨Node.text p false false false false, 1⟩]
      initialState 1 = some (St.mk "> " false [] [] [0] []) := rfl
  have s2 : runLoop
      [⟨Node.quote, 0⟩, ⟨Node.text q false false false false, 1⟩,
       ⟨Node.paragraph, 0⟩, ⟨Node.text p false false false false, 1⟩]
      initialState 2 = some (St.mk (("> " ++ q) ++ "\n") false [] [] [] []) := by
    show (runLoop _ initialState 1).bind _ = _
    rw [s1]
    simp [stepEntry, emitNode, closeOut, closeLink, closeCode, closeCodeGo,
      closeList, closeListGo, closeQuote, closeQuoteGo, closable]
  have s3 : runLoop
      [⟨Node.quote, 0⟩, ⟨Node.text q false false false false, 1⟩,
       ⟨Node.paragraph, 0⟩, ⟨Node.text p false false false false, 1⟩]
      initialState 3 = some (St.mk ((("> " ++ q) ++ "\n") ++ "\n") true [] [] [] []) := by
    show (runLoop _ initialState 2).bind _ = _
    rw [s2]
    simp [stepEntry, emitNode, closeOut, closeLink, closeCode, closeCodeGo,
      closeList, closeListGo, closeQuote, closeQuoteGo, closable,
      appendLineBreak_of_ne _ _ hne2]
  have s4 : runLoop
      [⟨Node.quote, 0⟩, ⟨Node.text q false false false false, 1⟩,
       ⟨Node.paragraph, 0⟩, ⟨Node.text p false false false false, 1⟩]
      initialState 4
      = some (St.mk (((("> " ++ q) ++ "\n") ++ "\n") ++ p) true [] [] [] []) := by
    show (runLoop _ initialState 3).bind _ = _
    rw [s3]
    simp [stepEntry, emitNode, closeOut, closeLink, closeCode, closeCodeGo,
      closeList, closeListGo, closeQuote, closeQuoteGo, closable]
  rw [s4]
  refine congrArg some ?_
  show (((("> " ++ q) ++ "\n") ++ "\n") ++ p) = _
  rw [String.append_assoc ("> " ++ q) "\n" "\n"]
  rw [show ("\n" : String) ++ "\n" = "\n\n" from rfl]

/-! ### Claim C6: ordered list counters -/

theorem closable_none_eq (d : Nat) : closable none d = true := rfl

theorem closable_self (d : Nat) : closable (some d) d = true := by
  simp [closable]

theorem closable_succ_self (d : Nat) : closable (some (d + 1)) d = false := by
  simp [closable]

theorem closeListGo_of_lt (d : Nat) (L : List ListFrame)
    (h : ∀ f ∈ L, f.depth < d) : closeListGo (some d) L = L := by
  cases L with
  | nil => rfl
  | cons f rest =>
      have hf : closable (some d) f.depth = false := by
        have := h f (by simp)
        simp [closable]
        omega
      simp [closeListGo, hf]

theorem closeListGo_none_eq (L : List ListFrame) : closeListGo none L = [] := by
  induction L with
  | nil => rfl
  | cons f rest ih => simp [closeListGo, closable, ih]

theorem runLoop_succ (nodes : List Entry) (st0 : St) (k : Nat) :
    runLoop nodes st0 (k + 1) = (runLoop nodes st0 k).bind fun st =>
      match nodes[k]? with
      | none => some st
      | some e => stepEntry st e ((nodes[k + 1]?).map Entry.depth) := rfl

theorem append_right_ne_empty (a b : String) (h : b ≠ "") : a ++ b ≠ "" := by
  intro heq
  apply h
  have hd : (a ++ b).data = ([] : List Char) := congrArg String.data heq
  rw [String.data_append] at hd
  have hb : b.data = [] := (List.append_eq_nil.mp hd).2
  cases b with
  | mk d =>
      cases hb
      rfl

/-- C6: a List frame is pushed with its counter at 0; a marker-emitting
ListItem under an ordered list pre-increments the top counter and emits
`count + 1`; hence two sibling ordered lists at the same depth each emit
their first item as `1. `, independent of frames at other depths left on
the stack below. -/
theorem claim_c6_ordered_counters :
    (∀ (st : St) (d : Nat) (tag : ListTag),
      emitNode st ⟨Node.list tag, d⟩
        = some { st with listStack := ⟨0, d, tag⟩ :: st.listStack }) ∧
    (∀ (st : St) (f : ListFrame) (rest : List ListFrame) (d : Nat),
      st.listStack = f :: rest → f.tag = ListTag.ol →
      emitNode st ⟨Node.listItem false, d⟩ = some { st with
        text := ((appendLineBreak st.text st.shouldAppendFirstLineBreak
          ++ String.mk (List.replicate (rest.length * 4) ' ')) ++ toString (f.count + 1)) ++ ". "
        listStack := { f with count := f.count + 1 } :: rest }) ∧
    (∀ (st : St) (d : Nat),
      st.closingBracketStack = [] → st.codeStack = [] → st.quoteStack = [] →
      (∀ f ∈ st.listStack, f.depth < d) →
      runLoop [⟨Node.list ListTag.ol, d⟩, ⟨Node.listItem false, d + 1⟩,
               ⟨Node.list ListTag.ol, d⟩, ⟨Node.listItem false, d + 1⟩] st 4
        = some { st with
            text := ((appendLineBreak
                (((appendLineBreak st.text st.shouldAppendFirstLineBreak
                  ++ String.mk (List.replicate (st.listStack.length * 4) ' '))
                  ++ toString 1) ++ ". ")
                st.shouldAppendFirstLineBreak
              ++ String.mk (List.replicate (st.listStack.length * 4) ' '))
              ++ toString 1) ++ ". "
            listStack := [] }) := by
  refine ⟨?_, ?_, ?_⟩
  · intro st d tag
    rfl
  · intro st f rest d hstack htag
    simp [emitNode, hstack, htag]
  · intro st d h1 h2 h3 h4
    have s1 : runLoop [⟨Node.list ListTag.ol, d⟩, ⟨Node.listItem false, d + 1⟩,
            ⟨Node.list ListTag.ol, d⟩, ⟨Node.listItem false, d + 1⟩] st 1
        = some { st with listStack := ⟨0, d, ListTag.ol⟩ :: st.listStack } := by
      rw [runLoop_succ]
      show stepEntry st ⟨Node.list ListTag.ol, d⟩ (some (d + 1)) = _
      simp [stepEntry, emitNode, closeOut, closeLink, closeCode, closeCodeGo,
        closeList, closeListGo, closeQuote, closeQuoteGo, h1, h2, h3,
        closable_succ_self]
    have s2 : runLoop [⟨Node.list ListTag.ol, d⟩, ⟨Node.listItem false, d + 1⟩,
            ⟨Node.list ListTag.ol, d⟩, ⟨Node.listItem false, d + 1⟩] st 2
        = some { st with
            text := ((appendLineBreak st.text st.shouldAppendFirstLineBreak
              ++ String.mk (List.replicate (st.listStack.length * 4) ' '))
              ++ toString 1) ++ ". " } := by
      rw [runLoop_succ, s1]
      show stepEntry _ ⟨Node.listItem false, d + 1⟩ (some d) = _
      simp [stepEntry, emitNode, closeOut, closeLink, closeCode, closeCodeGo,
        closeList, closeListGo, closeQuote, closeQuoteGo, h1, h2, h3,
        closable_self, closeListGo_of_lt d st.listStack h4]
    have s3 : runLoop [⟨Node.list ListTag.ol, d⟩, ⟨Node.listItem false, d + 1⟩,
            ⟨Node.list ListTag.ol, d⟩, ⟨Node.listItem false, d + 1⟩] st 3
        = some { st with
            text := ((appendLineBreak st.text st.shouldAppendFirstLineBreak
              ++ String.mk (List.replicate (st.listStack.length * 4) ' '))
              ++ toString 1) ++ ". "
            listStack := ⟨0, d, ListTag.ol⟩ :: st.listStack } := by
      rw [runLoop_succ, s2]
      show stepEntry _ ⟨Node.list ListTag.ol, d⟩ (some (d + 1)) = _
      simp [stepEntry, emitNode, closeOut, closeLink, closeCode, closeCodeGo,
        closeList, closeListGo, closeQuote, closeQuoteGo, h1, h2, h3,
        closable_succ_self]
    have hT1ne : (((appendLineBreak st.text st.shouldAppendFirstLineBreak
          ++ String.mk (List.replicate (st.listStack.length * 4) ' '))
          ++ toString 1) ++ ". ") ≠ "" :=
      append_right_ne_empty _ ". " (by decide)
    rw [runLoop_succ, s3]
    show stepEntry _ ⟨Node.listItem false, d + 1⟩ none = _
    simp [stepEntry, emitNode, closeOut, closeLink, closeCode, closeCodeGo,
      closeList, closeListGo_none_eq, closeQuote, closeQuoteGo, h1, h2, h3,
      appendLineBreak_of_ne _ _ hT1ne]

/-- Witness for C6: two sibling ordered lists at depth 0, serialized from
the fresh state. -/
theorem claim_c6_ordered_counters_witness :
    runLoop [⟨Node.list ListTag.ol, 0⟩, ⟨Node.listItem false, 1⟩,
             ⟨Node.list ListTag.ol, 0⟩, ⟨Node.listItem false, 1⟩] initialState 4
      = some { initialState with
          text := ((appendLineBreak
              (((appendLineBreak initialState.text initialState.shouldAppendFirstLineBreak
                ++ String.mk (List.replicate (initialState.listStack.length * 4) ' '))
                ++ toString 1) ++ ". ")
              initialState.shouldAppendFirstLineBreak
            ++ String.mk (List.replicate (initialState.listStack.length * 4) ' '))
            ++ toString 1) ++ ". "
          listStack := [] } :=
  claim_c6_ordered_counters.2.2 initialState 0 rfl rfl rfl (by simp [initialState])

/-! ### Claim C7: balance of code fences -/

/-- The `$isCodeNode` classification predicate. -/
def isCodeNode : Node → Bool
  | Node.code => true
  | _ => false

/-- The `$isListNode` classification predicate. -/
def isListNode : Node → Bool
  | Node.list _ => true
  | _ => false

/-- The `$isQuoteNode` classification predicate. -/
def isQuoteNode : Node → Bool
  | Node.quote => true
  | _ => false

/-- Number of backtick characters in a string. -/
def countTick (s : String) : Nat := List.count '`' s.toList

/-- An entry that contributes no backtick of its own: text content and
URLs are backtick-free and no text node carries the code format flag. -/
def tickFreeEntry (e : Entry) : Bool :=
  match e.node with
  | Node.text content fc _ _ _ => decide (countTick content = 0) && !fc
  | Node.link url => decide (countTick url = 0)
  | _ => true

theorem countTick_append (a b : String) :
    countTick (a ++ b) = countTick a + countTick b := by
  show List.count '`' (a ++ b).data = _
  rw [String.data_append, List.count_append]
  rfl

theorem countTick_aLB (t : String) (b : Bool) :
    countTick (appendLineBreak t b) = countTick t := by
  unfold appendLineBreak
  split
  · rw [countTick_append, show countTick "\n" = 0 from rfl]
    omega
  · rfl

theorem countTick_replicate_space (n : Nat) :
    countTick (String.mk (List.replicate n ' ')) = 0 := by
  show List.count '`' (List.replicate n ' ') = 0
  rw [List.count_replicate]
  simp

theorem digitChar_lt10_ne_tick : ∀ m, m < 10 → Nat.digitChar m ≠ '`' := by decide

theorem toDigitsCore_ne_tick :
    ∀ (f n : Nat) (ds : List Char), (∀ c ∈ ds, c ≠ '`') →
      ∀ c ∈ Nat.toDigitsCore 10 f n ds, c ≠ '`' := by
  intro f
  induction f with
  | zero =>
      intro n ds hds c hc
      rw [Nat.toDigitsCore] at hc
      exact hds c hc
  | succ f ih =>
      intro n ds hds c hc
      rw [Nat.toDigitsCore] at hc
      have hdig := digitChar_lt10_ne_tick (n % 10) (Nat.mod_lt n (by norm_num))
      split at hc
      · rcases List.mem_cons.mp hc with h | h
        · subst h; exact hdig
        · exact hds c h
      · refine ih _ _ ?_ c hc
        intro c2 hc2
        rcases List.mem_cons.mp hc2 with h | h
        · subst h; exact hdig
        · exact hds c2 h

theorem countTick_toString (n : Nat) : countTick (toString n) = 0 := by
  show List.count '`' (toString n).toList = 0
  rw [List.count_eq_zero]
  show ¬ '`' ∈ (Nat.toDigits 10 n).asString.toList
  intro hmem
  exact toDigitsCore_ne_tick (n + 1) n [] (by simp) '`' hmem rfl

theorem tickZero_replaceChar (l : List Char) (t : Char) (r : List Char)
    (h1 : List.count '`' l = 0) (h2 : List.count '`' r = 0) :
    List.count '`' (replaceChar l t r) = 0 := by
  induction l with
  | nil => rfl
  | cons c rest ih =>
      have hc : List.count '`' rest = 0 ∧ (c == '`') = false := by
        rw [List.count_cons] at h1
        constructor
        · omega
        · by_cases hb : (c == '`') = true
          · rw [hb] at h1; simp at h1
          · simpa using hb
      show List.count '`' ((if c = t then r else [c]) ++ replaceChar rest t r) = 0
      rw [List.count_append, ih hc.1]
      split
      · rw [h2]
      · show List.count '`' [c] + 0 = 0
        rw [List.count_singleton]
        simp [hc.2]

theorem countTick_encodeURLTitle (s : String) (h : countTick s = 0) :
    countTick (encodeURLTitle s) = 0 := by
  show List.count '`' (replaceChar (replaceChar (replaceChar s.toList '\\' "\\\\".toList)
      '[' "\\[".toList) ']' "\\]".toList) = 0
  exact tickZero_replaceChar _ _ _
    (tickZero_replaceChar _ _ _
      (tickZero_replaceChar _ _ _ h (by decide)) (by decide)) (by decide)

theorem countTick_encodeURL (s : String) (h : countTick s = 0) :
    countTick (encodeURL s) = 0 := by
  show List.count '`' (replaceChar s.toList ')' "%29".toList) = 0
  exact tickZero_replaceChar _ _ _ h (by decide)

theorem stepEntry_eq_some {st st' : St} {e : Entry} {nd : Option Nat}
    (h : stepEntry st e nd = some st') :
    ∃ s1, emitNode st e = some s1 ∧ st' = closeOut s1 nd := by
  unfold stepEntry at h
  cases hm : emitNode st e with
  | none => rw [hm] at h; exact absurd h (by simp)
  | some s1 =>
      rw [hm] at h
      refine ⟨s1, rfl, ?_⟩
      injection h with h
      exact h.symm

/-- Per-kind emission changes the backtick count by exactly six per Code
node (three for the opening fence plus three owed by the pushed frame),
and keeps every stored link closing text backtick-free. -/
theorem emitNode_tick {st st' : St} {e : Entry}
    (h : emitNode st e = some st')
    (he : tickFreeEntry e = true)
    (hlk : ∀ f ∈ st.closingBracketStack, countTick f.endText = 0) :
    (countTick st'.text + 3 * st'.codeStack.length
      = countTick st.text + 3 * st.codeStack.length
        + 6 * (if isCodeNode e.node then 1 else 0)) ∧
    (∀ f ∈ st'.closingBracketStack, countTick f.endText = 0) := by
  cases e with
  | mk node depth =>
    cases node with
    | heading tag =>
        simp only [emitNode] at h
        split at h
        · injection h with h; subst h
          refine ⟨?_, hlk⟩
          dsimp only
          rw [countTick_append, countTick_aLB, show countTick "# " = 0 from rfl]
          simp [isCodeNode]
        · split at h
          · injection h with h; subst h
            refine ⟨?_, hlk⟩
            dsimp only
            rw [countTick_append, countTick_aLB, show countTick "## " = 0 from rfl]
            simp [isCodeNode]
          · injection h with h; subst h
            exact ⟨by simp [isCodeNode], hlk⟩
    | list tag =>
        simp only [emitNode] at h
        injection h with h; subst h
        exact ⟨by simp [isCodeNode], hlk⟩
    | listItem single =>
        simp only [emitNode] at h
        split at h
        · injection h with h; subst h
          exact ⟨by simp [isCodeNode], hlk⟩
        · cases hls : st.listStack with
          | nil => simp only [hls] at h; exact absurd h (by simp)
          | cons f rest =>
              simp only [hls] at h
              split at h
              · injection h with h; subst h
                refine ⟨?_, hlk⟩
                dsimp only
                rw [countTick_append, countTick_append, countTick_append,
                  countTick_aLB, countTick_replicate_space, countTick_toString,
                  show countTick ". " = 0 from rfl,
                  show (if isCodeNode (Node.listItem single) then 1 else 0) = 0 from rfl]
                omega
              · injection h with h; subst h
                refine ⟨?_, hlk⟩
                dsimp only
                rw [countTick_append, countTick_append,
                  countTick_aLB, countTick_replicate_space,
                  show countTick "- " = 0 from rfl,
                  show (if isCodeNode (Node.listItem single) then 1 else 0) = 0 from rfl]
                omega
    | text content fc fb fi fs =>
        have he2 : countTick content = 0 ∧ fc = false := by
          simpa [tickFreeEntry] using he
        obtain ⟨hct, hfc⟩ := he2
        subst hfc
        have h0 : countTick (if 0 < st.closingBracketStack.length
            then encodeURLTitle content else content) = 0 := by
          split
          · exact countTick_encodeURLTitle content hct
          · exact hct
        cases fb <;> cases fi <;> cases fs <;>
          · simp only [emitNode] at h
            injection h with h
            subst h
            refine ⟨?_, hlk⟩
            dsimp only
            simp [countTick_append, h0, isCodeNode,
              show countTick "~~" = 0 from rfl, show countTick "**" = 0 from rfl,
              show countTick "*" = 0 from rfl]
    | paragraph =>
        simp only [emitNode] at h
        injection h with h; subst h
        refine ⟨?_, hlk⟩
        dsimp only
        rw [countTick_aLB,
          show (if isCodeNode Node.paragraph then 1 else 0) = 0 from rfl]
        omega
    | quote =>
        simp only [emitNode] at h
        injection h with h; subst h
        refine ⟨?_, hlk⟩
        dsimp only
        rw [countTick_append, countTick_aLB, show countTick "> " = 0 from rfl,
          show (if isCodeNode Node.quote then 1 else 0) = 0 from rfl]
        omega
    | linebreak =>
        simp only [emitNode] at h
        injection h with h; subst h
        refine ⟨?_, hlk⟩
        dsimp only
        rw [countTick_aLB,
          show (if isCodeNode Node.linebreak then 1 else 0) = 0 from rfl]
        omega
    | code =>
        simp only [emitNode] at h
        injection h with h; subst h
        refine ⟨?_, hlk⟩
        dsimp only
        rw [countTick_append, countTick_aLB, show countTick "```\n" = 3 from rfl,
          show (if isCodeNode Node.code then 1 else 0) = 1 from rfl,
          List.length_cons]
        omega
    | link url =>
        have hu : countTick url = 0 := by simpa [tickFreeEntry] using he
        simp only [emitNode] at h
        injection h with h; subst h
        constructor
        · dsimp only
          rw [countTick_append, show countTick "[" = 0 from rfl,
            show (if isCodeNode (Node.link url) then 1 else 0) = 0 from rfl]
          omega
        · intro f hf
          dsimp only at hf
          rcases List.mem_cons.mp hf with hf | hf
          · subst hf
            dsimp only
            rw [countTick_append, countTick_append, show countTick "](" = 0 from rfl,
              countTick_encodeURL url hu, show countTick ")" = 0 from rfl]
          · exact hlk f hf
    | other =>
        simp only [emitNode] at h
        injection h with h; subst h
        exact ⟨by simp [isCodeNode], hlk⟩

theorem closeCodeGo_tick (nd : Option Nat) :
    ∀ (l : List Nat) (t : String),
      countTick (closeCodeGo nd l t).2 + 3 * (closeCodeGo nd l t).1.length
        = countTick t + 3 * l.length := by
  intro l
  induction l with
  | nil => intro t; rfl
  | cons d rest ih =>
      intro t
      unfold closeCodeGo
      split
      · rw [ih (t ++ "\n```"), countTick_append,
          show countTick "\n```" = 3 from rfl, List.length_cons]
        omega
      · rfl

theorem closeQuoteGo_tick (nd : Option Nat) :
    ∀ (l : List Nat) (t : String),
      countTick (closeQuoteGo nd l t).2 = countTick t := by
  intro l
  induction l with
  | nil => intro t; rfl
  | cons d rest ih =>
      intro t
      unfold closeQuoteGo
      split
      · rw [ih (t ++ "\n"), countTick_append, show countTick "\n" = 0 from rfl]
        omega
      · rfl

theorem closeCodeGo_none_nil :
    ∀ (l : List Nat) (t : String), (closeCodeGo none l t).1 = [] := by
  intro l
  induction l with
  | nil => intro t; rfl
  | cons d rest ih =>
      intro t
      unfold closeCodeGo
      simp only [closable]
      exact ih _

/-- The close-out pass preserves the backtick invariant: every popped code
frame pays its three-backtick debt with one closing fence, and the link
texts flushed or kept contain no backtick. -/
theorem closeOut_tick (s1 : St) (nd : Option Nat)
    (hlk : ∀ f ∈ s1.closingBracketStack, countTick f.endText = 0) :
    (countTick (closeOut s1 nd).text + 3 * (closeOut s1 nd).codeStack.length
      = countTick s1.text + 3 * s1.codeStack.length) ∧
    (∀ f ∈ (closeOut s1 nd).closingBracketStack, countTick f.endText = 0) := by
  have hA : countTick (closeLink s1 nd).text = countTick s1.text ∧
      (closeLink s1 nd).codeStack = s1.codeStack ∧
      (∀ f ∈ (closeLink s1 nd).closingBracketStack, countTick f.endText = 0) := by
    cases hcb : s1.closingBracketStack with
    | nil =>
        have he : closeLink s1 nd = s1 := by simp [closeLink, hcb]
        rw [he]
        exact ⟨rfl, rfl, hlk⟩
    | cons top rest =>
        by_cases hcl : closable nd top.depth = true
        · have he : closeLink s1 nd
              = { s1 with closingBracketStack := rest, text := s1.text ++ top.endText } := by
            simp [closeLink, hcb, hcl]
          rw [he]
          refine ⟨?_, rfl, ?_⟩
          · show countTick (s1.text ++ top.endText) = countTick s1.text
            rw [countTick_append, hlk top (by rw [hcb]; exact List.mem_cons_self _ _)]
            omega
          · intro f hf
            exact hlk f (by rw [hcb]; exact List.mem_cons_of_mem _ hf)
        · have he : closeLink s1 nd = s1 := by
            simp [closeLink, hcb, hcl]
          rw [he]
          exact ⟨rfl, rfl, hlk⟩
  obtain ⟨hA1, hA2, hA3⟩ := hA
  constructor
  · show countTick (closeQuoteGo nd _ _).2 + 3 * (closeCodeGo nd _ _).1.length = _
    rw [closeQuoteGo_tick]
    show countTick (closeCodeGo nd (closeLink s1 nd).codeStack (closeLink s1 nd).text).2
        + 3 * (closeCodeGo nd (closeLink s1 nd).codeStack (closeLink s1 nd).text).1.length = _
    rw [closeCodeGo_tick, hA1, hA2]
  · intro f hf
    exact hA3 f hf

theorem stepEntry_none_codeStack {st st' : St} {e : Entry}
    (h : stepEntry st e none = some st') : st'.codeStack = [] := by
  obtain ⟨s1, _, hrest⟩ := stepEntry_eq_some h
  subst hrest
  exact closeCodeGo_none_nil _ _

/-- The backtick-count invariant along the traversal loop. -/
theorem runLoop_tick_inv (nodes : List Entry)
    (hn : ∀ e ∈ nodes, tickFreeEntry e = true) :
    ∀ (k : Nat) (st : St), runLoop nodes initialState k = some st →
      (countTick st.text + 3 * st.codeStack.length
        = 6 * List.countP (fun e2 => isCodeNode e2.node) (List.take k nodes)) ∧
      (∀ f ∈ st.closingBracketStack, countTick f.endText = 0) := by
  intro k
  induction k with
  | zero =>
      intro st h
      injection h with h; subst h
      exact ⟨by simp [initialState, countTick], by simp [initialState]⟩
  | succ k ih =>
      intro st h
      rw [runLoop_succ] at h
      cases hr : runLoop nodes initialState k with
      | none => rw [hr] at h; exact absurd h (by simp)
      | some stk =>
          rw [hr] at h
          simp only [Option.some_bind] at h
          obtain ⟨hk1, hk2⟩ := ih stk hr
          cases hne : nodes[k]? with
          | none =>
              rw [hne] at h
              injection h with h; subst h
              refine ⟨?_, hk2⟩
              rw [List.take_succ, hne]
              simpa using hk1
          | some e =>
              rw [hne] at h
              obtain ⟨s1, hemit, hrest⟩ := stepEntry_eq_some h
              have he := hn e (List.getElem?_mem hne)
              obtain ⟨he1, he2⟩ := emitNode_tick hemit he hk2
              obtain ⟨hc1, hc2⟩ := closeOut_tick s1 _ he2
              subst hrest
              refine ⟨?_, hc2⟩
              rw [List.take_succ, hne]
              have hcount : List.countP (fun e2 => isCodeNode e2.node)
                  (List.take k nodes ++ (some e).toList)
                  = List.countP (fun e2 => isCodeNode e2.node) (List.take k nodes)
                    + (if isCodeNode e.node then 1 else 0) := by
                simp [List.countP_append, List.countP_cons]
              rw [hcount]
              cases hic : isCodeNode e.node
              · simp only [hic] at he1 ⊢
                simp at he1 ⊢
                omega
              · simp only [hic] at he1 ⊢
                simp at he1 ⊢
                omega

/-- C7: every Code node emits exactly one opening fence and pushes one
frame; over any successful run on backtick-free content the output
contains exactly six backticks (one opening and one closing fence) per
Code entry, so fences are balanced one-to-one, including for empty code
blocks and when the code block ends the sequence. -/
theorem claim_c7_fence_balance :
    (∀ (st : St) (d : Nat),
      emitNode st ⟨Node.code, d⟩ = some { st with
        text := appendLineBreak st.text st.shouldAppendFirstLineBreak ++ "```\n"
        codeStack := d :: st.codeStack }) ∧
    (∀ (nodes : List Entry), (∀ e ∈ nodes, tickFreeEntry e = true) →
      ∀ (out : String), convertToMarkdownString nodes = some out →
        countTick out = 6 * List.countP (fun e => isCodeNode e.node) nodes) := by
  constructor
  · intro st d
    rfl
  · intro nodes hn out hout
    unfold convertToMarkdownString at hout
    cases hr : runLoop nodes initialState nodes.length with
    | none => rw [hr] at hout; exact absurd hout (by simp)
    | some stf =>
        rw [hr] at hout
        injection hout with hout
        subst hout
        have hinv := (runLoop_tick_inv nodes hn nodes.length stf hr).1
        rw [List.take_length] at hinv
        have hcs : stf.codeStack = [] := by
          cases nodes with
          | nil =>
              injection hr with hr
              rw [← hr]
              rfl
          | cons e0 rest =>
              rw [show (e0 :: rest).length = rest.length + 1 from rfl, runLoop_succ] at hr
              cases hrm : runLoop (e0 :: rest) initialState rest.length with
              | none => rw [hrm] at hr; exact absurd hr (by simp)
              | some stm =>
                  rw [hrm] at hr
                  simp only [Option.some_bind] at hr
                  cases hne : (e0 :: rest)[rest.length]? with
                  | none =>
                      rw [List.getElem?_eq_none_iff] at hne
                      simp at hne
                  | some elast =>
                      rw [hne] at hr
                      have hnone : (e0 :: rest)[rest.length + 1]? = none := by
                        rw [List.getElem?_eq_none_iff]
                        simp
                      rw [hnone] at hr
                      exact stepEntry_none_codeStack hr
        rw [hcs] at hinv
        simpa using hinv

/-- Witness for C7: a single empty Code block ending the sequence yields
six backticks for one Code entry. -/
theorem claim_c7_fence_balance_witness :
    countTick "```\n\n```"
      = 6 * List.countP (fun e => isCodeNode e.node) [(⟨Node.code, 0⟩ : Entry)] :=
  claim_c7_fence_balance.2 [⟨Node.code, 0⟩] (by decide) "```\n\n```" (by decide)

/-! ### Claim C3: totality on well-formed input -/

/-- The well-formedness hypothesis used by C3, in structural form: every
marker-emitting ListItem entry has an earlier List entry strictly above
it whose depth every intervening entry (and the ListItem itself)
exceeds — i.e. the ListItem occurs while that List frame is open. -/
def WFListItems (nodes : List Entry) : Prop :=
  ∀ (i : Nat) (e : Entry), nodes[i]? = some e → e.node = Node.listItem false →
    ∃ j, j < i ∧ ∃ (tag : ListTag) (dj : Nat),
      nodes[j]? = some ⟨Node.list tag, dj⟩ ∧
      ∀ (m : Nat) (em : Entry), j < m → m ≤ i → nodes[m]? = some em → dj < em.depth

theorem closeOut_listStack (s : St) (nd : Option Nat) :
    (closeOut s nd).listStack = closeListGo nd s.listStack := by
  simp [closeOut]

theorem emit_preserves_listdepth {st s1 : St} {e : Entry}
    (h : emitNode st e = some s1) (dj : Nat)
    (hmem : ∃ f ∈ st.listStack, f.depth = dj) :
    ∃ f ∈ s1.listStack, f.depth = dj := by
  obtain ⟨f0, hf0, hf0d⟩ := hmem
  cases e with
  | mk node depth =>
    cases node with
    | heading tag =>
        simp only [emitNode] at h
        split at h <;> [skip; split at h] <;>
          (injection h with h; subst h; exact ⟨f0, hf0, hf0d⟩)
    | list tag =>
        simp only [emitNode] at h
        injection h with h; subst h
        exact ⟨f0, List.mem_cons_of_mem _ hf0, hf0d⟩
    | listItem single =>
        simp only [emitNode] at h
        split at h
        · injection h with h; subst h
          exact ⟨f0, hf0, hf0d⟩
        · cases hls : st.listStack with
          | nil => simp only [hls] at h; exact absurd h (by simp)
          | cons g rest =>
              simp only [hls] at h
              rw [hls] at hf0
              split at h
              · injection h with h
                subst h
                rcases List.mem_cons.mp hf0 with hf | hf
                · subst hf
                  exact ⟨{ f0 with count := f0.count + 1 }, List.mem_cons_self _ _, hf0d⟩
                · exact ⟨f0, List.mem_cons_of_mem _ hf, hf0d⟩
              · injection h with h
                subst h
                exact ⟨f0, hf0, hf0d⟩
    | text content fc fb fi fs =>
        simp only [emitNode] at h
        injection h with h; subst h
        exact ⟨f0, hf0, hf0d⟩
    | paragraph =>
        simp only [emitNode] at h
        injection h with h; subst h
        exact ⟨f0, hf0, hf0d⟩
    | quote =>
        simp only [emitNode] at h
        injection h with h; subst h
        exact ⟨f0, hf0, hf0d⟩
    | linebreak =>
        simp only [emitNode] at h
        injection h with h; subst h
        exact ⟨f0, hf0, hf0d⟩
    | code =>
        simp only [emitNode] at h
        injection h with h; subst h
        exact ⟨f0, hf0, hf0d⟩
    | link url =>
        simp only [emitNode] at h
        injection h with h; subst h
        exact ⟨f0, hf0, hf0d⟩
    | other =>
        simp only [emitNode] at h
        injection h with h; subst h
        exact ⟨f0, hf0, hf0d⟩

theorem closeListGo_mem {nd : Option Nat} {dj : Nat}
    (hclos : closable nd dj = false) :
    ∀ {L : List ListFrame}, (∃ f ∈ L, f.depth = dj) →
      ∃ f ∈ closeListGo nd L, f.depth = dj := by
  intro L
  induction L with
  | nil => intro h; exact absurd h (by simp)
  | cons g rest ih =>
      intro h
      obtain ⟨f0, hf0, hf0d⟩ := h
      unfold closeListGo
      split
      · rcases List.mem_cons.mp hf0 with hf | hf
        · subst hf
          rw [hf0d] at *
          simp_all
        · exact ih ⟨f0, hf, hf0d⟩
      · exact ⟨f0, hf0, hf0d⟩

/-- While every entry strictly between a List entry and the current
position (inclusive of the lookahead) is deeper than the List entry, the
frame pushed for that List entry is still on the list stack. -/
theorem listFrame_alive (nodes : List Entry) :
    ∀ (k : Nat) (st : St), runLoop nodes initialState k = some st →
      ∀ (j : Nat) (tag : ListTag) (dj : Nat), j < k →
        nodes[j]? = some ⟨Node.list tag, dj⟩ →
        (∀ m, j < m → m ≤ k → ∃ em, nodes[m]? = some em ∧ dj < em.depth) →
        ∃ f ∈ st.listStack, f.depth = dj := by
  intro k
  induction k with
  | zero =>
      intro st h j tag dj hj
      exact absurd hj (Nat.not_lt_zero j)
  | succ k ih =>
      intro st h j tag dj hj hjget hmcond
      rw [runLoop_succ] at h
      cases hr : runLoop nodes initialState k with
      | none => rw [hr] at h; exact absurd h (by simp)
      | some stk =>
          rw [hr] at h
          simp only [Option.some_bind] at h
          cases hne : nodes[k]? with
          | none =>
              rw [hne] at h
              injection h with h; subst h
              have hjlt : j < k := by
                have hjlen : j < nodes.length := by
                  by_contra hcon
                  rw [List.getElem?_eq_none_iff.mpr (by omega)] at hjget
                  exact absurd hjget (by simp)
                have hklen : nodes.length ≤ k := List.getElem?_eq_none_iff.mp hne
                omega
              exact ih stk hr j tag dj hjlt hjget
                (fun m hm1 hm2 => hmcond m hm1 (by omega))
          | some e =>
              rw [hne] at h
              obtain ⟨s1, hemit, hrest⟩ := stepEntry_eq_some h
              subst hrest
              obtain ⟨em1, hem1, hdj1⟩ := hmcond (k + 1) (by omega) (le_refl _)
              have hnd : (nodes[k + 1]?).map Entry.depth = some em1.depth := by
                rw [hem1]; rfl
              have hclos : closable (some em1.depth) dj = false := by
                simp [closable]
                omega
              rcases Nat.lt_or_ge j k with hjk | hjk
              · have hmem1 := ih stk hr j tag dj hjk hjget
                  (fun m hm1 hm2 => hmcond m hm1 (by omega))
                have hmem2 : ∃ f ∈ s1.listStack, f.depth = dj :=
                  emit_preserves_listdepth hemit dj hmem1
                rw [closeOut_listStack, hnd]
                exact closeListGo_mem hclos hmem2
              · have hjeq : j = k := by omega
                subst hjeq
                have he : e = ⟨Node.list tag, dj⟩ := by
                  rw [hjget] at hne
                  injection hne with hne
                  exact hne.symm
                subst he
                have hs1 : s1 = { stk with listStack := ⟨0, dj, tag⟩ :: stk.listStack } := by
                  have : emitNode stk ⟨Node.list tag, dj⟩
                      = some { stk with listStack := ⟨0, dj, tag⟩ :: stk.listStack } := rfl
                  rw [this] at hemit
                  injection hemit with hemit
                  exact hemit.symm
                rw [closeOut_listStack, hnd, hs1]
                rw [show closeListGo (some em1.depth)
                    ({ stk with listStack := ⟨0, dj, tag⟩ :: stk.listStack } : St).listStack
                    = ⟨0, dj, tag⟩ :: stk.listStack from by
                  simp [closeListGo, hclos]]
                exact ⟨⟨0, dj, tag⟩, List.mem_cons_self _ _, rfl⟩

theorem emitNode_total (st : St) (e : Entry)
    (hli : e.node = Node.listItem false → st.listStack ≠ []) :
    ∃ s1, emitNode st e = some s1 := by
  cases e with
  | mk node depth =>
    cases node with
    | heading tag =>
        simp only [emitNode]
        by_cases h1 : tag = "h1"
        · exact ⟨_, by rw [if_pos h1]⟩
        · by_cases h2 : tag = "h2"
          · exact ⟨_, by rw [if_neg h1, if_pos h2]⟩
          · exact ⟨_, by rw [if_neg h1, if_neg h2]⟩
    | list tag => exact ⟨_, rfl⟩
    | listItem single =>
        cases single with
        | true => exact ⟨st, rfl⟩
        | false =>
            have hne := hli rfl
            cases hls : st.listStack with
            | nil => exact absurd hls hne
            | cons g rest =>
                simp only [emitNode, hls]
                by_cases hg : g.tag = ListTag.ol
                · exact ⟨_, by rw [if_neg (by decide : ¬(false = true)), if_pos hg]⟩
                · exact ⟨_, by rw [if_neg (by decide : ¬(false = true)), if_neg hg]⟩
    | text content fc fb fi fs => exact ⟨_, rfl⟩
    | paragraph => exact ⟨_, rfl⟩
    | quote => exact ⟨_, rfl⟩
    | linebreak => exact ⟨_, rfl⟩
    | code => exact ⟨_, rfl⟩
    | link url => exact ⟨_, rfl⟩
    | other => exact ⟨st, rfl⟩

/-- C3: unrecognized node kinds (the `other` fall-through and heading
levels beyond h2) are silent no-ops, and on any input whose
marker-emitting ListItems all occur inside an open List frame the
serializer produces a string, raising no error: the only partial
operation, reading the top of the list stack, is exercised only within
its domain. -/
theorem claim_c3_totality :
    (∀ (st : St) (d : Nat), emitNode st ⟨Node.other, d⟩ = some st) ∧
    (∀ (st : St) (tag : String) (d : Nat), tag ≠ "h1" → tag ≠ "h2" →
      emitNode st ⟨Node.heading tag, d⟩ = some st) ∧
    (∀ nodes : List Entry, WFListItems nodes →
      ∃ out, convertToMarkdownString nodes = some out) := by
  refine ⟨fun st d => rfl, ?_, ?_⟩
  · intro st tag d h1 h2
    simp [emitNode, h1, h2]
  · intro nodes hwf
    have key : ∀ k, ∃ st, runLoop nodes initialState k = some st := by
      intro k
      induction k with
      | zero => exact ⟨initialState, rfl⟩
      | succ k ihk =>
          obtain ⟨stk, hk⟩ := ihk
          rw [runLoop_succ, hk]
          simp only [Option.some_bind]
          cases hne : nodes[k]? with
          | none => exact ⟨stk, rfl⟩
          | some e =>
              have hklen : k < nodes.length := by
                by_contra hcon
                rw [List.getElem?_eq_none_iff.mpr (by omega)] at hne
                exact absurd hne (by simp)
              have htot : ∃ s1, emitNode stk e = some s1 := by
                apply emitNode_total
                intro hli
                obtain ⟨j, hj, tag, dj, hjget, hmcond⟩ := hwf k e hne hli
                have hmcond2 : ∀ m, j < m → m ≤ k →
                    ∃ em, nodes[m]? = some em ∧ dj < em.depth := by
                  intro m hm1 hm2
                  cases hme : nodes[m]? with
                  | none =>
                      exfalso
                      rw [List.getElem?_eq_none_iff] at hme
                      omega
                  | some em => exact ⟨em, rfl, hmcond m em hm1 hm2 hme⟩
                obtain ⟨f, hf, _⟩ :=
                  listFrame_alive nodes k stk hk j tag dj hj hjget hmcond2
                exact List.ne_nil_of_mem hf
              obtain ⟨s1, hs1⟩ := htot
              refine ⟨closeOut s1 ((nodes[k + 1]?).map Entry.depth), ?_⟩
              show (emitNode stk e).map
                  (fun s => closeOut s ((nodes[k + 1]?).map Entry.depth)) = _
              rw [hs1]
              rfl
    obtain ⟨stf, hstf⟩ := key nodes.length
    refine ⟨stf.text, ?_⟩
    unfold convertToMarkdownString
    rw [hstf]
    rfl

/-- Witness for C3 on a concrete well-formed input: a one-item ordered
list. -/
theorem claim_c3_totality_witness :
    ∃ out, convertToMarkdownString
      [⟨Node.list ListTag.ol, 0⟩, ⟨Node.listItem false, 1⟩] = some out :=
  claim_c3_totality.2.2 _ (by
    intro i e hi hli
    cases i with
    | zero =>
        injection hi with hi
        rw [← hi] at hli
        exact absurd hli (by decide)
    | succ i =>
        cases i with
        | zero =>
            refine ⟨0, by omega, ListTag.ol, 0, rfl, ?_⟩
            intro m em hm1 hm2 hme
            have hm : m = 1 := by omega
            subst hm
            injection hme with hme
            rw [← hme]
            decide
        | succ i2 =>
            rw [List.getElem?_eq_none_iff.mpr (by show 2 ≤ i2 + 1 + 1; omega)] at hi
            exact absurd hi (by simp))

/-! ### Claim C1: the frame close-out schedule -/

/-- Depth of the entry at index `j` (0 past the end, unused there). -/
def entryDepthAt (nodes : List Entry) (j : Nat) : Nat :=
  match nodes[j]? with
  | some e => e.depth
  | none => 0

/-- A frame opened at index `j` with depth `d` survives the close-outs of
the first `k` loop iterations iff no lookahead depth among positions
`j+1 .. k` (end of sequence included, as an always-closable sentinel)
closes it. -/
def survB (nodes : List Entry) (j k : Nat) (d : Nat) : Bool :=
  (List.range (k + 1)).all fun m =>
    if j < m then !closable ((nodes[m]?).map Entry.depth) d else true

/-- Whether index `j` holds a `p`-node whose frame survives after `k`
iterations. -/
def survPred (p : Node → Bool) (nodes : List Entry) (k : Nat) (j : Nat) : Bool :=
  match nodes[j]? with
  | some e => p e.node && survB nodes j k e.depth
  | none => false

/-- The closed-form contents of a depth stack after `k` iterations: the
depths of exactly those `p`-entries whose frame has not yet been closed,
most recent on top. -/
def stackSpec (p : Node → Bool) (nodes : List Entry) (k : Nat) : List Nat :=
  (((List.range k).filter (survPred p nodes k)).reverse).map (entryDepthAt nodes)

theorem survB_get {nodes : List Entry} {j k d : Nat}
    (h : survB nodes j k d = true) {m : Nat} (h1 : j < m) (h2 : m ≤ k) :
    closable ((nodes[m]?).map Entry.depth) d = false := by
  unfold survB at h
  rw [List.all_eq_true] at h
  have hm := h m (by rw [List.mem_range]; omega)
  rw [if_pos h1] at hm
  simpa using hm

theorem survB_succ (nodes : List Entry) (j k d : Nat) (hj : j ≤ k) :
    survB nodes j (k + 1) d
      = (survB nodes j k d
          && !closable ((nodes[k + 1]?).map Entry.depth) d) := by
  unfold survB
  rw [List.range_succ, List.all_append]
  congr 1
  show List.all [k + 1] _ = _
  rw [List.all_cons, List.all_nil, if_pos (by omega), Bool.and_true]

theorem survB_refl (nodes : List Entry) (k d : Nat) :
    survB nodes k k d = true := by
  unfold survB
  rw [List.all_eq_true]
  intro m hm
  rw [List.mem_range] at hm
  rw [if_neg (by omega)]

theorem survB_self (nodes : List Entry) (k d : Nat) :
    survB nodes k (k + 1) d
      = !closable ((nodes[k + 1]?).map Entry.depth) d := by
  rw [survB_succ nodes k k d (le_refl k), survB_refl, Bool.true_and]

theorem stackSpec_nil_of_none (p : Node → Bool) (nodes : List Entry)
    {k0 k : Nat} (h : nodes[k0]? = none) (hle : k0 ≤ k) :
    stackSpec p nodes k = [] := by
  unfold stackSpec
  have hfil : (List.range k).filter (survPred p nodes k) = [] := by
    rw [List.filter_eq_nil_iff]
    intro j hj
    rw [List.mem_range] at hj
    rcases Nat.lt_or_ge j k0 with hjk | hjk
    · cases hje : nodes[j]? with
      | none => simp [survPred, hje]
      | some ej =>
          have hsb : survB nodes j k ej.depth = false := by
            by_contra hcon
            rw [Bool.not_eq_false] at hcon
            have hcl := survB_get hcon hjk hle
            rw [h] at hcl
            exact absurd hcl (by simp [closable])
          simp [survPred, hje, hsb]
    · have hjn : nodes[j]? = none := by
        rw [List.getElem?_eq_none_iff] at h ⊢
        omega
      simp [survPred, hjn]
  rw [hfil]
  rfl

theorem stackSpec_mem_lt {p : Node → Bool} {nodes : List Entry} {k : Nat}
    {e : Entry} (hk : nodes[k]? = some e) :
    ∀ d ∈ stackSpec p nodes k, d < e.depth := by
  intro d hd
  unfold stackSpec at hd
  rw [List.mem_map] at hd
  obtain ⟨j, hj, hdep⟩ := hd
  rw [List.mem_reverse, List.mem_filter, List.mem_range] at hj
  obtain ⟨hjk, hsp⟩ := hj
  unfold survPred at hsp
  cases hje : nodes[j]? with
  | none => rw [hje] at hsp; exact absurd hsp (by simp)
  | some ej =>
      rw [hje] at hsp
      rw [Bool.and_eq_true] at hsp
      have hcl := survB_get hsp.2 hjk (le_refl k)
      rw [hk] at hcl
      have hdj : d = ej.depth := by
        rw [← hdep]
        unfold entryDepthAt
        rw [hje]
      subst hdj
      simp [closable] at hcl
      omega

theorem stackSpec_sorted (p : Node → Bool) (nodes : List Entry) (k : Nat) :
    List.Pairwise (· > ·) (stackSpec p nodes k) := by
  unfold stackSpec
  rw [List.pairwise_map, List.pairwise_reverse]
  have hrange : List.Pairwise (· < ·) (List.range k) := List.pairwise_lt_range k
  have h1 : List.Pairwise (fun j1 j2 =>
      survPred p nodes k j1 = true → survPred p nodes k j2 = true →
        entryDepthAt nodes j1 < entryDepthAt nodes j2) (List.range k) := by
    refine hrange.imp_of_mem ?_
    intro j1 j2 hm1 hm2 hlt hq1 hq2
    rw [List.mem_range] at hm2
    unfold survPred at hq1 hq2
    cases hj1 : nodes[j1]? with
    | none => rw [hj1] at hq1; exact absurd hq1 (by simp)
    | some e1 =>
        cases hj2 : nodes[j2]? with
        | none => rw [hj2] at hq2; exact absurd hq2 (by simp)
        | some e2 =>
            rw [hj1] at hq1
            rw [hj2] at hq2
            rw [Bool.and_eq_true] at hq1
            have hcl := survB_get hq1.2 hlt (by omega)
            rw [hj2] at hcl
            have hd1 : entryDepthAt nodes j1 = e1.depth := by
              unfold entryDepthAt
              rw [hj1]
            have hd2 : entryDepthAt nodes j2 = e2.depth := by
              unfold entryDepthAt
              rw [hj2]
            show entryDepthAt nodes j1 < entryDepthAt nodes j2
            rw [hd1, hd2]
            simp [closable] at hcl
            omega
  have h2 := h1.filter (survPred p nodes k)
  refine h2.imp_of_mem ?_
  intro j1 j2 hm1 hm2 hr
  rw [List.mem_filter] at hm1 hm2
  exact hr hm1.2 hm2.2

theorem dropWhile_eq_filter_of_sorted (nd : Option Nat) :
    ∀ l : List Nat, List.Pairwise (· > ·) l →
      l.dropWhile (fun d => closable nd d)
        = l.filter (fun d => !closable nd d) := by
  intro l
  induction l with
  | nil => intro _; rfl
  | cons a t ih =>
      intro hp
      by_cases ha : closable nd a = true
      · rw [List.dropWhile_cons_of_pos (by simpa using ha),
          List.filter_cons_of_neg (by simpa using ha)]
        exact ih (List.Pairwise.of_cons hp)
      · have ht : ∀ b ∈ t, closable nd b = false := by
          intro b hb
          have hba : a > b := (List.pairwise_cons.mp hp).1 b hb
          cases nd with
          | none => exact absurd rfl ha
          | some x =>
              simp only [closable] at ha ⊢
              simp at ha ⊢
              omega
        rw [List.dropWhile_cons_of_neg (by simpa using ha),
          List.filter_cons_of_pos (by simpa using ha)]
        rw [List.filter_eq_self.mpr]
        intro b hb
        simpa using ht b hb

theorem survPred_succ (p : Node → Bool) (nodes : List Entry) (k j : Nat)
    (hj : j < k) :
    survPred p nodes (k + 1) j
      = (survPred p nodes k j
          && (match nodes[j]? with
              | some ej => !closable ((nodes[k + 1]?).map Entry.depth) ej.depth
              | none => true)) := by
  unfold survPred
  cases hje : nodes[j]? with
  | none => simp
  | some ej =>
      dsimp only
      rw [survB_succ nodes j k ej.depth (by omega)]
      simp [Bool.and_assoc]

theorem spec_step_aux (p : Node → Bool) (nodes : List Entry) (k : Nat) :
    ∀ idx : List Nat, (∀ j ∈ idx, j < k) →
      ((idx.filter (survPred p nodes (k + 1))).map (entryDepthAt nodes))
        = (((idx.filter (survPred p nodes k)).map (entryDepthAt nodes)).filter
            (fun d => !closable ((nodes[k + 1]?).map Entry.depth) d)) := by
  intro idx
  induction idx with
  | nil => intro _; rfl
  | cons j t ih =>
      intro hmem
      have hj : j < k := hmem j (List.mem_cons_self _ _)
      have iht := ih (fun x hx => hmem x (List.mem_cons_of_mem _ hx))
      cases hq : survPred p nodes k j with
      | false =>
          have hq1 : survPred p nodes (k + 1) j = false := by
            rw [survPred_succ p nodes k j hj, hq, Bool.false_and]
          rw [List.filter_cons_of_neg (by simp [hq1]),
            List.filter_cons_of_neg (by simp [hq]), iht]
      | true =>
          cases hje : nodes[j]? with
          | none =>
              unfold survPred at hq
              rw [hje] at hq
              exact absurd hq (by simp)
          | some ej =>
              have hdj : entryDepthAt nodes j = ej.depth := by
                unfold entryDepthAt
                rw [hje]
              have hq1 : survPred p nodes (k + 1) j
                  = !closable ((nodes[k + 1]?).map Entry.depth) ej.depth := by
                rw [survPred_succ p nodes k j hj, hq, hje, Bool.true_and]
              cases hcl : closable ((nodes[k + 1]?).map Entry.depth) ej.depth with
              | true =>
                  rw [List.filter_cons_of_neg (by simp [hq1, hcl]),
                    List.filter_cons_of_pos (by simp [hq]), List.map_cons,
                    List.filter_cons_of_neg (by simp [hdj, hcl]), iht]
              | false =>
                  rw [List.filter_cons_of_pos (by simp [hq1, hcl]),
                    List.filter_cons_of_pos (by simp [hq]), List.map_cons,
                    List.map_cons,
                    List.filter_cons_of_pos (by simp [hdj, hcl]), iht]

theorem stackSpec_step (p : Node → Bool) (nodes : List Entry) (k : Nat)
    {e : Entry} (hk : nodes[k]? = some e) :
    stackSpec p nodes (k + 1)
      = (if p e.node then e.depth :: stackSpec p nodes k
          else stackSpec p nodes k).filter
          (fun d => !closable ((nodes[k + 1]?).map Entry.depth) d) := by
  unfold stackSpec
  rw [List.range_succ, List.filter_append]
  have hsp : survPred p nodes (k + 1) k
      = (p e.node && !closable ((nodes[k + 1]?).map Entry.depth) e.depth) := by
    unfold survPred
    rw [hk]
    dsimp only
    rw [survB_self]
  have hsing : List.filter (survPred p nodes (k + 1)) [k]
      = if (p e.node && !closable ((nodes[k + 1]?).map Entry.depth) e.depth)
          then [k] else [] := by
    simp [List.filter_cons, hsp]
  rw [hsing, List.reverse_append, List.map_append]
  have htail : ((List.filter (survPred p nodes (k + 1)) (List.range k)).reverse).map
        (entryDepthAt nodes)
      = (((List.filter (survPred p nodes k) (List.range k)).reverse).map
          (entryDepthAt nodes)).filter
          (fun d => !closable ((nodes[k + 1]?).map Entry.depth) d) := by
    rw [List.map_reverse, List.map_reverse,
      spec_step_aux p nodes k (List.range k)
        (fun j hj => List.mem_range.mp hj),
      List.filter_reverse]
  rw [htail]
  have hde : entryDepthAt nodes k = e.depth := by
    unfold entryDepthAt
    rw [hk]
  by_cases hp : p e.node = true
  · rw [if_pos hp]
    cases hcl : closable ((nodes[k + 1]?).map Entry.depth) e.depth with
    | true => simp [hp, hcl, List.filter_cons]
    | false => simp [hp, hcl, hde, List.filter_cons]
  · rw [if_neg hp]
    simp [hp]

/-- Effect of one emission on the three depth stacks: push the entry
depth on the matching stack, leave the others unchanged (a ListItem
renumbers the top list frame but keeps its depth). -/
theorem emitNode_stacks {st s1 : St} {e : Entry} (h : emitNode st e = some s1) :
    s1.quoteStack
        = (if isQuoteNode e.node then e.depth :: st.quoteStack else st.quoteStack) ∧
    s1.codeStack
        = (if isCodeNode e.node then e.depth :: st.codeStack else st.codeStack) ∧
    s1.listStack.map ListFrame.depth
        = (if isListNode e.node then e.depth :: st.listStack.map ListFrame.depth
            else st.listStack.map ListFrame.depth) := by
  cases e with
  | mk node depth =>
    cases node with
    | heading tag =>
        simp only [emitNode] at h
        split at h
        · injection h with h; subst h
          exact ⟨by simp [isQuoteNode], by simp [isCodeNode], by simp [isListNode]⟩
        · split at h
          · injection h with h; subst h
            exact ⟨by simp [isQuoteNode], by simp [isCodeNode], by simp [isListNode]⟩
          · injection h with h; subst h
            exact ⟨by simp [isQuoteNode], by simp [isCodeNode], by simp [isListNode]⟩
    | list tag =>
        simp only [emitNode] at h
        injection h with h; subst h
        exact ⟨by simp [isQuoteNode], by simp [isCodeNode], by simp [isListNode]⟩
    | listItem single =>
        simp only [emitNode] at h
        split at h
        · injection h with h; subst h
          exact ⟨by simp [isQuoteNode], by simp [isCodeNode], by simp [isListNode]⟩
        · cases hls : st.listStack with
          | nil => simp only [hls] at h; exact absurd h (by simp)
          | cons f rest =>
              simp only [hls] at h
              split at h
              · injection h with h; subst h
                refine ⟨by simp [isQuoteNode], by simp [isCodeNode], ?_⟩
                simp [isListNode, hls]
              · injection h with h; subst h
                refine ⟨by simp [isQuoteNode], by simp [isCodeNode], ?_⟩
                simp [isListNode, hls]
    | text content fc fb fi fs =>
        simp only [emitNode] at h
        injection h with h; subst h
        exact ⟨by simp [isQuoteNode], by simp [isCodeNode], by simp [isListNode]⟩
    | paragraph =>
        simp only [emitNode] at h
        injection h with h; subst h
        exact ⟨by simp [isQuoteNode], by simp [isCodeNode], by simp [isListNode]⟩
    | quote =>
        simp only [emitNode] at h
        injection h with h; subst h
        exact ⟨by simp [isQuoteNode], by simp [isCodeNode], by simp [isListNode]⟩
    | linebreak =>
        simp only [emitNode] at h
        injection h with h; subst h
        exact ⟨by simp [isQuoteNode], by simp [isCodeNode], by simp [isListNode]⟩
    | code =>
        simp only [emitNode] at h
        injection h with h; subst h
        exact ⟨by simp [isQuoteNode], by simp [isCodeNode], by simp [isListNode]⟩
    | link url =>
        simp only [emitNode] at h
        injection h with h; subst h
        exact ⟨by simp [isQuoteNode], by simp [isCodeNode], by simp [isListNode]⟩
    | other =>
        simp only [emitNode] at h
        injection h with h; subst h
        exact ⟨by simp [isQuoteNode], by simp [isCodeNode], by simp [isListNode]⟩

theorem closeCodeGo_fst (nd : Option Nat) :
    ∀ (l : List Nat) (t : String),
      (closeCodeGo nd l t).1 = l.dropWhile (fun d => closable nd d) := by
  intro l
  induction l with
  | nil => intro t; rfl
  | cons d rest ih =>
      intro t
      unfold closeCodeGo
      by_cases hd : closable nd d = true
      · rw [if_pos hd, ih, List.dropWhile_cons_of_pos (by simpa using hd)]
      · rw [if_neg hd, List.dropWhile_cons_of_neg (by simpa using hd)]

theorem closeQuoteGo_fst (nd : Option Nat) :
    ∀ (l : List Nat) (t : String),
      (closeQuoteGo nd l t).1 = l.dropWhile (fun d => closable nd d) := by
  intro l
  induction l with
  | nil => intro t; rfl
  | cons d rest ih =>
      intro t
      unfold closeQuoteGo
      by_cases hd : closable nd d = true
      · rw [if_pos hd, ih, List.dropWhile_cons_of_pos (by simpa using hd)]
      · rw [if_neg hd, List.dropWhile_cons_of_neg (by simpa using hd)]

theorem closeListGo_eq_dropWhile (nd : Option Nat) :
    ∀ L : List ListFrame,
      closeListGo nd L = L.dropWhile (fun f => closable nd f.depth) := by
  intro L
  induction L with
  | nil => rfl
  | cons f rest ih =>
      unfold closeListGo
      by_cases hf : closable nd f.depth = true
      · rw [if_pos hf, ih, List.dropWhile_cons_of_pos (by simpa using hf)]
      · rw [if_neg hf, List.dropWhile_cons_of_neg (by simpa using hf)]

theorem map_depth_dropWhile (nd : Option Nat) :
    ∀ L : List ListFrame,
      (L.dropWhile (fun f => closable nd f.depth)).map ListFrame.depth
        = (L.map ListFrame.depth).dropWhile (fun d => closable nd d) := by
  intro L
  induction L with
  | nil => rfl
  | cons f rest ih =>
      by_cases hf : closable nd f.depth = true
      · rw [List.dropWhile_cons_of_pos (by simpa using hf), ih, List.map_cons,
          List.dropWhile_cons_of_pos (by simpa using hf)]
      · rw [List.dropWhile_cons_of_neg (by simpa using hf), List.map_cons,
          List.dropWhile_cons_of_neg (by simpa using hf)]

theorem closeOut_quoteStack (s : St) (nd : Option Nat) :
    (closeOut s nd).quoteStack = s.quoteStack.dropWhile (fun d => closable nd d) := by
  rw [show (closeOut s nd).quoteStack
      = (closeQuoteGo nd (closeList (closeCode (closeLink s nd) nd) nd).quoteStack
          (closeList (closeCode (closeLink s nd) nd) nd).text).1 from rfl,
    closeQuoteGo_fst, closeList_quoteStack, closeCode_quoteStack, closeLink_quoteStack]

theorem closeOut_codeStack (s : St) (nd : Option Nat) :
    (closeOut s nd).codeStack = s.codeStack.dropWhile (fun d => closable nd d) := by
  rw [show (closeOut s nd).codeStack
      = (closeCodeGo nd (closeLink s nd).codeStack (closeLink s nd).text).1 from rfl,
    closeCodeGo_fst, closeLink_codeStack]

theorem closeOut_listDepths (s : St) (nd : Option Nat) :
    (closeOut s nd).listStack.map ListFrame.depth
      = (s.listStack.map ListFrame.depth).dropWhile (fun d => closable nd d) := by
  rw [closeOut_listStack, closeListGo_eq_dropWhile, map_depth_dropWhile]

/-- The quote, code and list stacks after `k` iterations hold exactly the
depths of the not-yet-closed frames, in push order: each frame survives
precisely until the first position whose lookahead depth (or the end of
input) is at most the frame depth, where the while-loop close-out pops
it. -/
theorem runLoop_stack_spec (nodes : List Entry) :
    ∀ (k : Nat) (st : St), runLoop nodes initialState k = some st →
      st.quoteStack = stackSpec isQuoteNode nodes k ∧
      st.codeStack = stackSpec isCodeNode nodes k ∧
      st.listStack.map ListFrame.depth = stackSpec isListNode nodes k := by
  intro k
  induction k with
  | zero =>
      intro st h
      injection h with h; subst h
      exact ⟨rfl, rfl, rfl⟩
  | succ k ih =>
      intro st h
      rw [runLoop_succ] at h
      cases hr : runLoop nodes initialState k with
      | none => rw [hr] at h; exact absurd h (by simp)
      | some stk =>
          rw [hr] at h
          simp only [Option.some_bind] at h
          obtain ⟨hq, hc, hl⟩ := ih stk hr
          cases hne : nodes[k]? with
          | none =>
              rw [hne] at h
              injection h with h; subst h
              refine ⟨?_, ?_, ?_⟩
              · rw [hq, stackSpec_nil_of_none isQuoteNode nodes hne (le_refl k),
                  stackSpec_nil_of_none isQuoteNode nodes hne (Nat.le_succ k)]
              · rw [hc, stackSpec_nil_of_none isCodeNode nodes hne (le_refl k),
                  stackSpec_nil_of_none isCodeNode nodes hne (Nat.le_succ k)]
              · rw [hl, stackSpec_nil_of_none isListNode nodes hne (le_refl k),
                  stackSpec_nil_of_none isListNode nodes hne (Nat.le_succ k)]
          | some e =>
              rw [hne] at h
              obtain ⟨s1, hemit, hrest⟩ := stepEntry_eq_some h
              subst hrest
              obtain ⟨hq1, hc1, hl1⟩ := emitNode_stacks hemit
              refine ⟨?_, ?_, ?_⟩
              · rw [closeOut_quoteStack, hq1, hq,
                  stackSpec_step isQuoteNode nodes k hne]
                apply dropWhile_eq_filter_of_sorted
                by_cases hp : isQuoteNode e.node = true
                · rw [if_pos hp, List.pairwise_cons]
                  exact ⟨fun d hd => stackSpec_mem_lt hne d hd,
                    stackSpec_sorted isQuoteNode nodes k⟩
                · rw [if_neg hp]
                  exact stackSpec_sorted isQuoteNode nodes k
              · rw [closeOut_codeStack, hc1, hc,
                  stackSpec_step isCodeNode nodes k hne]
                apply dropWhile_eq_filter_of_sorted
                by_cases hp : isCodeNode e.node = true
                · rw [if_pos hp, List.pairwise_cons]
                  exact ⟨fun d hd => stackSpec_mem_lt hne d hd,
                    stackSpec_sorted isCodeNode nodes k⟩
                · rw [if_neg hp]
                  exact stackSpec_sorted isCodeNode nodes k
              · rw [closeOut_listDepths, hl1, hl,
                  stackSpec_step isListNode nodes k hne]
                apply dropWhile_eq_filter_of_sorted
                by_cases hp : isListNode e.node = true
                · rw [if_pos hp, List.pairwise_cons]
                  exact ⟨fun d hd => stackSpec_mem_lt hne d hd,
                    stackSpec_sorted isListNode nodes k⟩
                · rw [if_neg hp]
                  exact stackSpec_sorted isListNode nodes k

/-- C1, counterexample: for nested links, at end of input (a position
where every frame is closable) only the top link frame is popped: the
outer frame with closing text `](a)` stays on the stack forever and its
text never reaches the output, so not every frame is popped and flushed
at its first closable position. -/
theorem claim_c1_counterexample :
    (runLoop [⟨Node.link "a", 0⟩, ⟨Node.link "b", 1⟩] initialState 2).map
        St.closingBracketStack = some [⟨0, "](a)"⟩] ∧
    (runLoop [⟨Node.link "a", 0⟩, ⟨Node.link "b", 1⟩] initialState 2).map
        St.text = some "[[](b)" ∧
    closable none 0 = true ∧
    listContains "](a)".toList "[[](b)".toList = false := by
  refine ⟨by decide, by decide, by decide, by decide⟩

/-- C1, amended: the invariant holds as stated for the three while-loop
stacks (quote, code, list) — after `k` iterations each stack holds
exactly the frames whose every subsequent lookahead depth up to position
`k` (end of sequence acting as an always-closing sentinel) is strictly
greater than the frame depth, so each such frame is popped exactly once,
at the first closable position.  The link close-out instead pops at most
the one top frame per position: it flushes the top frame exactly when it
is closable and does nothing otherwise, so a link frame buried under a
simultaneously closable link frame stays (see the counterexample). -/
theorem claim_c1_close_schedule :
    (∀ (st : St) (nd : Option Nat),
      (st.closingBracketStack = [] → closeLink st nd = st) ∧
      (∀ (top : LinkFrame) (rest : List LinkFrame),
        st.closingBracketStack = top :: rest →
        (closable nd top.depth = true →
          closeLink st nd
            = { st with closingBracketStack := rest, text := st.text ++ top.endText }) ∧
        (closable nd top.depth = false → closeLink st nd = st))) ∧
    (∀ (nodes : List Entry) (k : Nat) (st : St),
      runLoop nodes initialState k = some st →
      st.quoteStack = stackSpec isQuoteNode nodes k ∧
      st.codeStack = stackSpec isCodeNode nodes k ∧
      st.listStack.map ListFrame.depth = stackSpec isListNode nodes k) := by
  constructor
  · intro st nd
    constructor
    · intro hnil
      simp [closeLink, hnil]
    · intro top rest hcons
      constructor
      · intro hcl
        simp [closeLink, hcons, hcl]
      · intro hcl
        simp [closeLink, hcons, hcl]
  · exact fun nodes k st h => runLoop_stack_spec nodes k st h

/-- Witness for the amended C1: one open Quote frame after one iteration
over a quote followed by its text child. -/
theorem claim_c1_close_schedule_witness :
    (St.mk "> " false [] [] [0] []).quoteStack
      = stackSpec isQuoteNode
          [⟨Node.quote, 0⟩, ⟨Node.text "q" false false false false, 1⟩] 1 :=
  (claim_c1_close_schedule.2
    [⟨Node.quote, 0⟩, ⟨Node.text "q" false false false false, 1⟩] 1
    (St.mk "> " false [] [] [0] []) (by decide)).1
